import Mathlib

/-!
Verification of the contract-program expected-utility engine and the
hill-climbing time-allocation search of `src/classes/contract_program.py`.

Time allocations are modelled as lists of `Option ℚ` indexed congruently with
node ids (the source keeps `TimeAllocation(node_id, time)` objects in a list
whose position equals `node_id`; every search routine indexes
`allocations[permutation[k].node_id]`, which relies on exactly this
congruence).  Floats are modelled as rationals.  The performance-profile
query layer (`classes/performance_profile.py`), `classes/utils.py`,
`classes/nodes/node.py` and `classes/initialize_allocations.py` are not part
of the sources; where their behaviour matters they are modelled from the
spec, and the expected-utility evaluators that the search calls are taken as
parameter functions (the spec fixes them to be deterministic in-memory
lookups).
-/

namespace ContractProg

/-- A single time value: `some t` is an allocated time, `none` is the null
time that marks a structurally-present but not independently allocated
node. -/
abbrev TimeQ := Option ℚ

/-- An allocation vector, index-aligned with node ids. -/
abbrev Alloc := List TimeQ

/-- `expression_type` of a node: `contract`, `conditional` or `for`. -/
inductive ExprType where
  | contract
  | conditional
  | forLoop
deriving DecidableEq, Repr

/-- The structural node data the search consults (`classes/nodes/node.py` is
not in the sources; fields are modelled from the spec's data model: id,
expression type, ordered parent and child id lists, `in_subtree`). -/
structure PNode where
  id : ℕ
  exprType : ExprType
  parents : List ℕ
  children : List ℕ
  inSubtree : Bool
deriving DecidableEq, Repr

/-- Modelled from the spec: `utils.find_node` looks a node id up in the DAG's
node list; an absent id is a fatal programming-contract violation (spec §7),
so the model returns `none` there. -/
def findNode (dag : List PNode) (i : ℕ) : Option PNode :=
  dag.find? (fun nd => nd.id = i)

/-- Expression type of the node with id `i`; an absent id defaults to
`contract` (the source would raise a not-found error instead, spec §7). -/
def exprTypeOf (dag : List PNode) (i : ℕ) : ExprType :=
  ((findNode dag i).map (fun nd => nd.exprType)).getD ExprType.contract

/-- `allocations[i].time` (out-of-range reads default to the null time; the
source would raise an IndexError, which no claim exercises). -/
def getTime (a : Alloc) (i : ℕ) : TimeQ :=
  a.getD i none

/-- Pointwise update of the time at index `i` (null times stay null). -/
def modifyTime : Alloc → ℕ → (ℚ → ℚ) → Alloc
  | [], _, _ => []
  | t :: ts, 0, f => t.map f :: ts
  | t :: ts, k + 1, f => t :: modifyTime ts k f

/-- The transfer at the heart of every hill-climbing candidate:
`adjusted[i].time -= s; adjusted[j].time += s`. -/
def transferTime (a : Alloc) (i j : ℕ) (s : ℚ) : Alloc :=
  modifyTime (modifyTime a i (fun t => t - s)) j (fun t => t + s)

/-- Modelled from the spec: `utils.remove_nones_time_allocations` ("Strip
null-time entries", `classes/utils.py` is not in the sources) — here the
node ids of the non-null entries, in order, using that entries are
index-aligned. -/
def nonNullIds (a : Alloc) : List ℕ :=
  (a.enum.filter (fun p => p.2.isSome)).map (fun p => p.1)

/-- `itertools.permutations(refactored_allocations, 2)`: all ordered pairs of
entries at distinct positions, in the iteration order of the source (first
index ascending, then second index ascending skipping the first).  The ids
produced by `nonNullIds` are strictly increasing, hence pairwise distinct, so
filtering by value agrees with pairing by position. -/
def orderedPairs (l : List ℕ) : List (ℕ × ℕ) :=
  l.flatMap (fun a => (l.filter (fun b => b ≠ a)).map (fun b => (a, b)))

/-- Candidate construction shared by `naive_hill_climbing_no_children_no_parents`
and the outer variants: skip a pair that exchanges time with itself, skip a
pair whose transfer would make the source time negative, otherwise move
`s` from `p.1` to `p.2`. -/
def baseCandidate (a : Alloc) (s : ℚ) (p : ℕ × ℕ) : Option Alloc :=
  if p.1 = p.2 then none
  else
    match getTime a p.1 with
    | none => none
    | some t0 => if t0 - s < 0 then none else some (transferTime a p.1 p.2 s)

/-- Candidate construction of `naive_hill_climbing_inner`: additionally skip
every pair that touches a conditional node or a for node. -/
def innerCandidate (dag : List PNode) (a : Alloc) (s : ℚ) (p : ℕ × ℕ) : Option Alloc :=
  if p.1 = p.2 then none
  else if exprTypeOf dag p.1 = ExprType.conditional ∨ exprTypeOf dag p.2 = ExprType.conditional then
    none
  else if exprTypeOf dag p.1 = ExprType.forLoop ∨ exprTypeOf dag p.2 = ExprType.forLoop then
    none
  else
    match getTime a p.1 with
    | none => none
    | some t0 => if t0 - s < 0 then none else some (transferTime a p.1 p.2 s)

/-- One scan over all pairs: the recorded `possible_local_max` list, i.e. the
candidates whose expected utility strictly exceeds the current allocation's. -/
def genCands (cand : Alloc → ℚ → ℕ × ℕ → Option Alloc) (eu : Alloc → ℚ)
    (a : Alloc) (s : ℚ) : List Alloc :=
  ((orderedPairs (nonNullIds a)).filterMap (cand a s)).filter (fun c => eu a < eu c)

/-- Python's `max` over a list of floats (never called on `[]` by the source;
the `[]` value is arbitrary). -/
def maxQList : List ℚ → ℚ
  | [] => 0
  | x :: xs => xs.foldl (fun u v => max u v) x

/-- The commit step: `best = max(eu(j) for j in possible_local_max)` followed
by `for j in possible_local_max: if eu(j) == best: allocations = deepcopy(j)`.
The loop has no break, so every tied candidate overwrites the previous one
and the last tied candidate is the one committed. -/
def commitLast (eu : Alloc → ℚ) (cands : List Alloc) (cur : Alloc) : Alloc :=
  cands.foldl (fun acc j => if eu j = maxQList (cands.map eu) then j else acc) cur

/-- The loop state of one search invocation: the committed allocation and the
current `time_switched`. -/
structure ClimbState where
  alloc : Alloc
  step : ℚ
deriving DecidableEq, Repr

/-- One iteration of the `while time_switched > threshold` body: scan all
pairs; if any candidate local maximum was recorded, commit (step unchanged),
otherwise divide the step by the decay. -/
def climbRound (cand : Alloc → ℚ → ℕ × ℕ → Option Alloc) (eu : Alloc → ℚ)
    (decay : ℚ) (st : ClimbState) : ClimbState :=
  let cands := genCands cand eu st.alloc st.step
  if cands.isEmpty then { alloc := st.alloc, step := st.step / decay }
  else { alloc := commitLast eu cands st.alloc, step := st.step }

/-- The search loop, fuel-indexed (the source loop has no structural bound;
the termination theorem shows enough fuel always exists). -/
def climbLoop (cand : Alloc → ℚ → ℕ × ℕ → Option Alloc) (eu : Alloc → ℚ)
    (decay threshold : ℚ) : ℕ → ClimbState → ClimbState
  | 0, st => st
  | n + 1, st =>
    if st.step ≤ threshold then st
    else climbLoop cand eu decay threshold n (climbRound cand eu decay st)

/-- Number of conditional/for dispatch nodes of a DAG. -/
def dispatchCount (dag : List PNode) : ℕ :=
  (dag.filter (fun nd =>
    nd.exprType = ExprType.conditional ∨ nd.exprType = ExprType.forLoop)).length

/-- Branch children beyond the first of each conditional (they share their
sibling's value and are counted once per pair in the uniform division). -/
def sharedBranchCount (dag : List PNode) : ℕ :=
  (dag.filter (fun nd => nd.exprType = ExprType.conditional)).foldl
    (fun acc nd => acc + (nd.children.length - 1)) 0

/-- The number of independently-allocated nodes of a DAG. -/
def independentCount (dag : List PNode) : ℕ :=
  dag.length - dispatchCount dag - sharedBranchCount dag

/-- Modelled from the spec: `InitializeAllocations.find_uniform_allocation` —
"the uniform per-node allocation, i.e. budget divided by the number of
independently-allocated nodes" (spec §4.2). -/
def findUniformAllocation (budget : ℚ) (dag : List PNode) : ℚ :=
  budget / (independentCount dag : ℚ)

/-- Modelled from the spec: `InitializeAllocations.uniform_budget` — charge
every conditional/for dispatch node `tau`, subtract the charges from the
budget, divide the remainder evenly across the independently-allocated nodes,
branch children of one conditional sharing one value (spec §4.3). -/
def uniformBudget (dag : List PNode) (budget tau : ℚ) : Alloc :=
  (List.range dag.length).map (fun k =>
    match findNode dag k with
    | none => none
    | some nd =>
      if nd.exprType = ExprType.conditional ∨ nd.exprType = ExprType.forLoop then some tau
      else some ((budget - (dispatchCount dag : ℚ) * tau) / (independentCount dag : ℚ)))

/-- `subprogram_expression_type` of a subprogram: a conditional branch or a
for-loop body. -/
inductive SubExpr where
  | conditionalBranch
  | forBody
deriving DecidableEq, Repr

/-- The state of one subprogram (a branch or loop body contract program):
its budget, its kind, its DAG and its committed allocation vector. -/
structure SubProgState where
  budget : ℚ
  subExpr : SubExpr
  dag : List PNode
  alloc : Alloc
deriving DecidableEq, Repr

/-- The taxed budget of the inner search: the subprogram budget minus `tau`
for a conditional branch, the budget itself for a for body. -/
def taxedBudget (sp : SubProgState) (tau : ℚ) : ℚ :=
  match sp.subExpr with
  | SubExpr.conditionalBranch => sp.budget - tau
  | SubExpr.forBody => sp.budget

/-- Helper for the degenerate-budget path: zero the non-conditional non-null
entries, the index tracking the node id. -/
def zeroFrom (dag : List PNode) : ℕ → Alloc → Alloc
  | _, [] => []
  | k, none :: ts => none :: zeroFrom dag (k + 1) ts
  | k, some x :: ts =>
    (if exprTypeOf dag k = ExprType.conditional then some x else some 0) ::
      zeroFrom dag (k + 1) ts

/-- The degenerate-budget path of `naive_hill_climbing_inner`: every
allocation whose time is not null and whose node is not a conditional node
gets time 0; null times and conditional nodes keep their value. -/
def zeroNonConditional (dag : List PNode) (a : Alloc) : Alloc :=
  zeroFrom dag 0 a

/-- `naive_hill_climbing_inner`: compute the taxed budget; if it is positive,
re-initialize the allocation to the uniform budget and run the search loop
with conditional/for pairs excluded; otherwise zero out the non-conditional
allocations and return at once. -/
def naiveHillClimbingInner (eu : Alloc → ℚ) (tau decay threshold : ℚ) (fuel : ℕ)
    (sp : SubProgState) : SubProgState :=
  if 0 < taxedBudget sp tau then
    let a0 := uniformBudget sp.dag sp.budget tau
    let stF := climbLoop (innerCandidate sp.dag) eu decay threshold fuel
      { alloc := a0, step := findUniformAllocation sp.budget sp.dag }
    { sp with alloc := stF.alloc }
  else
    { sp with alloc := zeroNonConditional sp.dag sp.alloc }

/-- `naive_hill_climbing_no_children_no_parents`: the base search with the
initial step set to the uniform per-node allocation of the budget. -/
def naiveHillClimbingNoChildrenNoParents (eu : Alloc → ℚ) (dag : List PNode)
    (budget : ℚ) (alloc : Alloc) (decay threshold : ℚ) (fuel : ℕ) : Alloc :=
  (climbLoop baseCandidate eu decay threshold fuel
    { alloc := alloc, step := findUniformAllocation budget dag }).alloc

/-- The pair of subprograms owned by one conditional node
(`node.true_subprogram`, `node.false_subprogram`). -/
structure CondPair where
  trueSub : SubProgState
  falseSub : SubProgState
deriving DecidableEq, Repr

/-- Look up the subprogram pair of the conditional node with id `i` (the
source dereferences `node.true_subprogram` on the node object itself; ids
are unique in a DAG, so the first match is the node). -/
def lookupSub (subs : List (ℕ × CondPair)) (i : ℕ) : Option CondPair :=
  (subs.find? (fun p => p.1 = i)).map (fun p => p.2)

/-- Replace the subprogram pair of the conditional node with id `i`. -/
def updateSub : List (ℕ × CondPair) → ℕ → CondPair → List (ℕ × CondPair)
  | [], _, _ => []
  | p :: ps, i, c => if p.1 = i then (i, c) :: ps else p :: updateSub ps i c

/-- When `node_k.expression_type == "conditional"` inside the outer
conditional scan: re-budget both branch subprograms to the candidate's new
time at that node (`change_budget`) and hill-climb each branch to convergence
with the inner search (called with its default `decay=1.1`,
`threshold=.01`); the subprogram states keep the fresh allocations and the
local `true_allocations`/`false_allocations` variables are rebound to them.
For a non-conditional node nothing happens. -/
def condStep (dag : List PNode) (euSub : ℕ → Bool → Alloc → ℚ) (tau : ℚ)
    (innerFuel : ℕ) (subs : List (ℕ × CondPair)) (tVar fVar : Alloc) (i : ℕ)
    (newTime : ℚ) : List (ℕ × CondPair) × Alloc × Alloc :=
  if exprTypeOf dag i = ExprType.conditional then
    match lookupSub subs i with
    | some pr =>
      let tS := naiveHillClimbingInner (euSub i true) tau (11 / 10) (1 / 100) innerFuel
        { pr.trueSub with budget := newTime }
      let fS := naiveHillClimbingInner (euSub i false) tau (11 / 10) (1 / 100) innerFuel
        { pr.falseSub with budget := newTime }
      (updateSub subs i { trueSub := tS, falseSub := fS }, tS.alloc, fS.alloc)
    | none => (subs, tVar, fVar)
  else (subs, tVar, fVar)

/-- Substitute the override allocations into every conditional subprogram
pair, as the evaluator's override mechanism does for the duration of its
query. -/
def overrideSubs (subs : List (ℕ × CondPair)) (oT oF : Alloc) : List (ℕ × CondPair) :=
  subs.map (fun p =>
    (p.1, { trueSub := { p.2.trueSub with alloc := oT },
            falseSub := { p.2.falseSub with alloc := oF } }))

/-- The state carried through one pair scan of
`naive_hill_climbing_outer_conditional`: the live subprogram states, the
local branch-allocation variables, and the recorded
`possible_local_max` triples `(adjusted, true_allocations, false_allocations)`. -/
structure OuterScan where
  subs : List (ℕ × CondPair)
  trueVar : Alloc
  falseVar : Alloc
  plm : List (Alloc × Alloc × Alloc)
deriving DecidableEq, Repr

/-- One pair iteration of the outer conditional scan.  `euOuter` models
`global_expected_utility` without override: it reads the candidate vector and
the live subprogram states; the baseline reads the current vector with the
committed `original_allocations_inner` substituted (the override mechanism).
After the body, the local branch variables are reset to the originals
(`original_allocations_inner` is a non-empty list here, so its truthiness
test passes); the subprogram states themselves are NOT reset. -/
def outerPairStep (dag : List PNode) (euOuter : Alloc → List (ℕ × CondPair) → ℚ)
    (euSub : ℕ → Bool → Alloc → ℚ) (tau : ℚ) (innerFuel : ℕ) (cur : Alloc)
    (origT origF : Alloc) (s : ℚ) (sc : OuterScan) (p : ℕ × ℕ) : OuterScan :=
  if p.1 = p.2 then sc
  else
    match getTime cur p.1 with
    | none => sc
    | some t0 =>
      if t0 - s < 0 then sc
      else
        let adjusted := transferTime cur p.1 p.2 s
        let r1 := condStep dag euSub tau innerFuel sc.subs sc.trueVar sc.falseVar p.1
          ((getTime adjusted p.1).getD 0)
        let r2 := condStep dag euSub tau innerFuel r1.1 r1.2.1 r1.2.2 p.2
          ((getTime adjusted p.2).getD 0)
        let plm2 :=
          if euOuter cur (overrideSubs r2.1 origT origF) < euOuter adjusted r2.1 then
            sc.plm ++ [(adjusted, r2.2.1, r2.2.2)]
          else sc.plm
        { subs := r2.1, trueVar := origT, falseVar := origF, plm := plm2 }

/-- The loop state of `naive_hill_climbing_outer_conditional`: the outer
allocation and step, the subprogram states, the committed
`original_allocations_inner` pair, and the persistent local variables. -/
structure OuterCondState where
  alloc : Alloc
  step : ℚ
  subs : List (ℕ × CondPair)
  origTrue : Alloc
  origFalse : Alloc
  trueVar : Alloc
  falseVar : Alloc
deriving DecidableEq, Repr

/-- One round of `naive_hill_climbing_outer_conditional`: scan all pairs of
non-null entries; if any candidate was recorded, commit the last one whose
(no-override) expected utility equals the maximum, adopting its branch
allocations as the new `original_allocations_inner`; otherwise decay the
step. -/
def outerCondRound (dag : List PNode) (euOuter : Alloc → List (ℕ × CondPair) → ℚ)
    (euSub : ℕ → Bool → Alloc → ℚ) (tau : ℚ) (innerFuel : ℕ) (decay : ℚ)
    (st : OuterCondState) : OuterCondState :=
  let sc := (orderedPairs (nonNullIds st.alloc)).foldl
    (outerPairStep dag euOuter euSub tau innerFuel st.alloc st.origTrue st.origFalse st.step)
    { subs := st.subs, trueVar := st.trueVar, falseVar := st.falseVar, plm := [] }
  if sc.plm.isEmpty then
    { st with
      step := st.step / decay
      subs := sc.subs
      trueVar := sc.trueVar
      falseVar := sc.falseVar }
  else
    let best := maxQList (sc.plm.map (fun j => euOuter j.1 sc.subs))
    let z := sc.plm.foldl (fun acc j => if euOuter j.1 sc.subs = best then j else acc)
      (st.alloc, st.origTrue, st.origFalse)
    { st with
      alloc := z.1
      origTrue := z.2.1
      origFalse := z.2.2
      subs := sc.subs
      trueVar := sc.trueVar
      falseVar := sc.falseVar }

/-- The outer conditional search loop, fuel-indexed. -/
def outerCondLoop (dag : List PNode) (euOuter : Alloc → List (ℕ × CondPair) → ℚ)
    (euSub : ℕ → Bool → Alloc → ℚ) (tau : ℚ) (innerFuel : ℕ)
    (decay threshold : ℚ) : ℕ → OuterCondState → OuterCondState
  | 0, st => st
  | n + 1, st =>
    if st.step ≤ threshold then st
    else outerCondLoop dag euOuter euSub tau innerFuel decay threshold n
      (outerCondRound dag euOuter euSub tau innerFuel decay st)

/-- `naive_hill_climbing_outer_conditional`: run the loop from the uniform
initial step and return `[allocations, original_allocations_inner[0],
original_allocations_inner[1]]`. -/
def naiveHillClimbingOuterConditional (dag : List PNode)
    (euOuter : Alloc → List (ℕ × CondPair) → ℚ) (euSub : ℕ → Bool → Alloc → ℚ)
    (tau : ℚ) (innerFuel : ℕ) (budget decay threshold : ℚ) (fuel : ℕ)
    (alloc : Alloc) (subs : List (ℕ × CondPair)) (origT origF tVar fVar : Alloc) :
    Alloc × Alloc × Alloc :=
  let stF := outerCondLoop dag euOuter euSub tau innerFuel decay threshold fuel
    { alloc := alloc
      step := findUniformAllocation budget dag
      subs := subs
      origTrue := origT
      origFalse := origF
      trueVar := tVar
      falseVar := fVar }
  (stF.alloc, stF.origTrue, stF.origFalse)

/-- Modelled from the spec: the Performance Profile query interface (§6),
implemented by the external `classes/performance_profile.py` over a
pre-loaded table; every query is a deterministic in-memory lookup (§5), so
each is a pure function.  The conditional/for queries read the node together
with its subprogram state(s), which is how the evaluator's override
substitution reaches them. -/
structure PerfProfile where
  findParentQualities : PNode → Alloc → ℕ → List TimeQ
  queryQualityList : TimeQ → ℕ → List TimeQ → List ℚ
  averageQuality : List ℚ → ℚ
  queryProbabilityContractExpression : ℚ → List ℚ → ℚ
  queryProbQualConditional : PNode → CondPair → ℚ × ℚ
  queryProbQualFor : PNode → SubProgState → ℚ × ℚ

/-- Replace the loop-body subprogram of the for node with id `i`. -/
def updateForSub : List (ℕ × SubProgState) → ℕ → SubProgState → List (ℕ × SubProgState)
  | [], _, _ => []
  | p :: ps, i, c => if p.1 = i then (i, c) :: ps else p :: updateForSub ps i c

/-- Look up the loop-body subprogram of the for node with id `i`. -/
def lookupForSub (subs : List (ℕ × SubProgState)) (i : ℕ) : Option SubProgState :=
  (subs.find? (fun p => p.1 = i)).map (fun p => p.2)

/-- The mutable state the approximate evaluator can see: the subprogram
states owned by conditional and for nodes, and the transient `traversed`
marker of every node (spec §3; `classes/nodes/node.py` is not in the
sources, so the marker is modelled from the spec as a per-node boolean). -/
structure ApproxState where
  condSubs : List (ℕ × CondPair)
  forSubs : List (ℕ × SubProgState)
  traversed : List Bool
deriving DecidableEq, Repr

/-- Python truthiness of the `original_allocations_inner` argument:
`None` and the empty list are falsy. -/
def truthyInner : Option (List Alloc) → Bool
  | none => false
  | some l => !l.isEmpty

/-- Modelled from the spec: `utils.remove_nones_time_allocations` applied by
the evaluator — the non-null entries of an allocation vector paired with
their node ids. -/
def refactoredEntries (a : Alloc) : List (ℕ × ℚ) :=
  a.enum.filterMap (fun p => p.2.map (fun x => (p.1, x)))

/-- `utils.flatten` followed by `math.prod`: `ContractProgram.global_utility`.
The quality lists of this model are already flat, so flatten is the
identity. -/
def globalUtility (qualities : List ℚ) : ℚ :=
  qualities.prod

/-- One loop iteration of `global_expected_utility_approximate` for the
non-null entry `e = (node_id, time)`, threading
`(probability, average_qualities, state)`.  A conditional or for node inside
a subtree is skipped.  A conditional (resp. for) node not in a subtree
queries the profile on its subprogram pair; when `original_allocations_inner`
is truthy its branch allocations are first replaced by the override and
afterwards restored to (deep copies of) the saved originals.  A contract
node queries its parents' qualities, the quality list at its time, and the
probability of achieving the average quality. -/
def approxStep (pp : PerfProfile) (dag : List PNode) (ta : Alloc)
    (origInner : Option (List Alloc)) (acc : ℚ × List ℚ × ApproxState)
    (e : ℕ × ℚ) : ℚ × List ℚ × ApproxState :=
  match findNode dag e.1 with
  | none => acc
  | some nd =>
    if (nd.exprType = ExprType.conditional ∨ nd.exprType = ExprType.forLoop) ∧
        nd.inSubtree = true then
      acc
    else if nd.exprType = ExprType.conditional ∧ nd.inSubtree = false then
      match lookupSub acc.2.2.condSubs nd.id with
      | none => acc
      | some pr =>
        if truthyInner origInner then
          let copiedT := pr.trueSub.alloc
          let copiedF := pr.falseSub.alloc
          let prOv : CondPair :=
            { trueSub := { pr.trueSub with alloc := (origInner.getD []).getD 0 [] }
              falseSub := { pr.falseSub with alloc := (origInner.getD []).getD 1 [] } }
          let st1 := { acc.2.2 with condSubs := updateSub acc.2.2.condSubs nd.id prOv }
          let pq := pp.queryProbQualConditional nd prOv
          let prRe : CondPair :=
            { trueSub := { pr.trueSub with alloc := copiedT }
              falseSub := { pr.falseSub with alloc := copiedF } }
          let st2 := { st1 with condSubs := updateSub st1.condSubs nd.id prRe }
          (acc.1 * pq.1, acc.2.1 ++ [pq.2], st2)
        else
          let pq := pp.queryProbQualConditional nd pr
          (acc.1 * pq.1, acc.2.1 ++ [pq.2], acc.2.2)
    else if nd.exprType = ExprType.forLoop ∧ nd.inSubtree = false then
      match lookupForSub acc.2.2.forSubs nd.id with
      | none => acc
      | some sb =>
        if truthyInner origInner then
          let copied := sb.alloc
          let sbOv : SubProgState := { sb with alloc := (origInner.getD []).getD 0 [] }
          let st1 := { acc.2.2 with forSubs := updateForSub acc.2.2.forSubs nd.id sbOv }
          let pq := pp.queryProbQualFor nd sbOv
          let st2 := { st1 with
            forSubs := updateForSub st1.forSubs nd.id { sb with alloc := copied } }
          (acc.1 * pq.1, acc.2.1 ++ [pq.2], st2)
        else
          let pq := pp.queryProbQualFor nd sb
          (acc.1 * pq.1, acc.2.1 ++ [pq.2], acc.2.2)
    else
      let parentQ := pp.findParentQualities nd ta 0
      let qs := pp.queryQualityList (some e.2) e.1 parentQ
      let avg := pp.averageQuality qs
      (acc.1 * pp.queryProbabilityContractExpression avg qs, acc.2.1 ++ [avg], acc.2.2)

/-- `global_expected_utility_approximate`: fold the per-entry step over the
non-null allocations and return `probability * global_utility(average_qualities)`
together with the state after the call. -/
def globalExpectedUtilityApproximate (pp : PerfProfile) (dag : List PNode)
    (ta : Alloc) (origInner : Option (List Alloc)) (st : ApproxState) :
    ℚ × ApproxState :=
  let r := (refactoredEntries ta).foldl (approxStep pp dag ta origInner) (1, [], st)
  (r.1 * globalUtility r.2.1, r.2.2)

/-- Modelled from the spec: `utils.find_terminal_leaves_in_dag` — the
terminal leaves of the DAG, i.e. the nodes every leaf-to-root enumeration
starts from: the nodes with no parents (edges run from the leaves to the
root). -/
def findTerminalLeavesInDag (dag : List PNode) : List PNode :=
  dag.filter (fun nd => nd.parents = [])

/-- Modelled from the spec: `utils.remove_nones_list` (missing from the
sources) — strip the null entries of the realized quality vector. -/
def removeNonesList (l : List TimeQ) : List ℚ :=
  l.filterMap id

/-- The accumulator of one `find_exact_expected_utility` call: the local
variables `expected_utility`, `current_qualities` (mutated in place, so its
final value is threaded back to the caller), `parent_qualities` (grows
across the nodes of one call) and `sum`. -/
structure ExactAcc where
  eu : ℚ
  currentQ : List TimeQ
  parentQ : List TimeQ
  tally : ℚ
deriving DecidableEq, Repr

mutual

/-- `find_exact_expected_utility(leaves, time_allocations, depth,
expected_utility, current_qualities, parent_qualities, possible_qualities,
sum)`; `ord` is `self.program_dag.order`.  The call increments `depth`,
returns `sum` on an empty worklist, otherwise iterates the worklist and
returns `sum` at depth `order - 1` and the accumulated `expected_utility`
at other depths, paired with the final `current_qualities`.  Fuel stands in
for the unbounded recursion of the source (which terminates on the acyclic
DAGs it is called on); running out of fuel returns the current `sum`. -/
def findExactCall (pp : PerfProfile) (dag : List PNode) (ord : ℕ)
    (possibleQ : List ℚ) (ta : Alloc) :
    ℕ → List PNode → ℕ → ExactAcc → ℚ × List TimeQ
  | 0, _, _, acc => (acc.tally, acc.currentQ)
  | fuel + 1, leaves, depth, acc =>
    if leaves.isEmpty then (acc.tally, acc.currentQ)
    else
      let r := findExactWork pp dag ord possibleQ ta fuel leaves (depth + 1) acc
      if depth + 1 = ord - 1 then (r.tally, r.currentQ) else (r.eu, r.currentQ)

/-- The `for node in leaves` iteration of `find_exact_expected_utility`.  A
conditional or for node extends the worklist with its children (the source
appends to the very list object being iterated, which also mutates the
node's children list in place; the model keeps the iteration semantics by
value) and is otherwise skipped.  A contract
node first appends its non-conditional/for parents' current qualities to
`parent_qualities` (unless at depth 1 or parentless), then loops over every
possible quality: write it into `current_qualities`, query the sample list
and the conditional probability; at depth `order - 1` add
`probability * global_utility` to `sum`, otherwise recurse on the node's
children and add `probability * recursive value` to `expected_utility`. -/
def findExactWork (pp : PerfProfile) (dag : List PNode) (ord : ℕ)
    (possibleQ : List ℚ) (ta : Alloc) :
    ℕ → List PNode → ℕ → ExactAcc → ExactAcc
  | 0, _, _, acc => acc
  | _ + 1, [], _, acc => acc
  | fuel + 1, nd :: rest, depth, acc =>
    if nd.exprType = ExprType.forLoop ∨ nd.exprType = ExprType.conditional then
      findExactWork pp dag ord possibleQ ta fuel
        (rest ++ nd.children.filterMap (findNode dag)) depth acc
    else
      let acc1 :=
        if nd.parents ≠ [] ∧ depth ≠ 1 then
          { acc with
            parentQ := acc.parentQ ++
              ((nd.parents.filterMap (findNode dag)).filter (fun pa =>
                ¬(pa.exprType = ExprType.forLoop ∨ pa.exprType = ExprType.conditional))).map
                (fun pa => acc.currentQ.getD pa.id none) }
        else acc
      let acc2 := possibleQ.foldl (fun a q =>
        let cq := a.currentQ.set nd.id (some q)
        let sample := pp.queryQualityList (getTime ta nd.id) nd.id a.parentQ
        let condProb := pp.queryProbabilityContractExpression q sample
        if depth = ord - 1 then
          { a with
            currentQ := cq
            tally := a.tally + condProb * globalUtility (removeNonesList cq) }
        else
          let sub := findExactCall pp dag ord possibleQ ta fuel
            (nd.children.filterMap (findNode dag)) depth
            { eu := a.eu, currentQ := cq, parentQ := [], tally := 0 }
          { a with currentQ := sub.2, eu := a.eu + condProb * sub.1 }) acc1
      findExactWork pp dag ord possibleQ ta fuel rest depth acc2

end

/-- `global_expected_utility_exact(time_allocations, original_allocations_inner)`:
the locals `probability`, `average_qualities` and `refactored_allocations`
are initialised and never used; the function unconditionally returns
`find_exact_expected_utility` applied to the DAG's terminal leaves with an
empty parent-quality context, `depth=0`, `expected_utility=1`, a fresh
all-null `current_qualities` of the generator DAG's order and `sum=0`,
before its per-node loop ever runs; everything after that `return`
(including every conditional- and for-expression branch and both uses of
`original_allocations_inner`) is dead code and does not appear in the
model's result. -/
def globalExpectedUtilityExact (pp : PerfProfile) (dag : List PNode)
    (ord genOrder : ℕ) (possibleQ : List ℚ) (fuel : ℕ) (ta : Alloc)
    (origInner : Option (List Alloc)) : ℚ :=
  (findExactCall pp dag ord possibleQ ta fuel (findTerminalLeavesInDag dag) 0
    { eu := 1, currentQ := List.replicate genOrder none, parentQ := [], tally := 0 }).1

/-- The error message of the dispatcher's `raise ValueError`. -/
def improperTypeMsg : String :=
  "Improper expected utility type"

/-- The `expected_utility_type` string selecting the exact evaluator. -/
def exactStr : String :=
  "exact"

/-- The `expected_utility_type` string selecting the approximate evaluator. -/
def approxStr : String :=
  "approximate"

/-- `global_expected_utility(time_allocations, original_allocations_inner)`:
dispatch on `self.expected_utility_type` — `"exact"` runs the exact
evaluator, `"approximate"` the approximate one, anything else raises
`ValueError("Improper expected utility type")`. -/
def globalExpectedUtilityDispatch (pp : PerfProfile) (dag : List PNode)
    (ord genOrder : ℕ) (possibleQ : List ℚ) (exactFuel : ℕ)
    (expectedUtilityType : String) (st : ApproxState) (ta : Alloc)
    (origInner : Option (List Alloc)) : Except String ℚ :=
  if expectedUtilityType = exactStr then
    Except.ok (globalExpectedUtilityExact pp dag ord genOrder possibleQ exactFuel ta origInner)
  else if expectedUtilityType = approxStr then
    Except.ok (globalExpectedUtilityApproximate pp dag ta origInner st).1
  else
    Except.error improperTypeMsg

/-- Non-negativity of one allocation entry (null entries are vacuously
fine). -/
def entryNonneg : TimeQ → Prop
  | none => True
  | some x => 0 ≤ x

instance : DecidablePred entryNonneg := fun t =>
  match t with
  | none => Decidable.isTrue trivial
  | some x => inferInstanceAs (Decidable (0 ≤ x))

/-- An allocation vector contains no negative time value. -/
def allocNonneg (a : Alloc) : Prop :=
  ∀ k x, getTime a k = some x → 0 ≤ x

/-- The shape of every hill-climbing candidate: a transfer of `s` between
two distinct entries whose source time passed the non-negativity guard. -/
def isGuardedTransfer (a : Alloc) (s : ℚ) (c : Alloc) : Prop :=
  ∃ i j t0, i ≠ j ∧ getTime a i = some t0 ∧ ¬ t0 - s < 0 ∧ c = transferTime a i j s

/-! ### Termination apparatus for the search loop

A commit streak at a fixed step `s` moves the allocation on the lattice
`{a₀ₖ + mₖ·s}` inside a bounded box, and the strictly increasing expected
utility makes the streak finite; every failed round divides the step by the
decay.  The following definitions build the finite lattice box and a natural
measure for that argument. -/

/-- Sum of the non-null times of an allocation vector. -/
def sumAlloc (a : Alloc) : ℚ :=
  a.foldr (fun t acc => t.getD 0 + acc) 0

/-- Number of non-null entries. -/
def countSome (a : Alloc) : ℕ :=
  (a.filter (fun t => t.isSome)).length

/-- A lower bound for all non-null entries, capped at 0. -/
def minEntry : Alloc → ℚ
  | [] => 0
  | none :: ts => minEntry ts
  | some x :: ts => min x (minEntry ts)

/-- The allocation at lattice position `m` relative to base `a₀` and step
`s`. -/
def recon (a₀ : Alloc) (s : ℚ) (m : List ℤ) : Alloc :=
  List.zipWith (fun t z => t.map (fun x => x + z * s)) a₀ m

/-- Shift one coordinate of an integer vector. -/
def intShift : List ℤ → ℕ → ℤ → List ℤ
  | [], _, _ => []
  | z :: zs, 0, d => (z + d) :: zs
  | z :: zs, k + 1, d => z :: intShift zs k d

/-- The finite set of integer vectors inside a list of coordinate
intervals. -/
def intBoxList : List (ℤ × ℤ) → Finset (List ℤ)
  | [] => {[]}
  | b :: bs => ((Finset.Icc b.1 b.2) ×ˢ intBoxList bs).image (fun q => q.1 :: q.2)

/-- Per-coordinate lattice bounds keeping `a₀ₖ + mₖ·s` inside `[L, H]`
(null coordinates are pinned to 0). -/
def boxBounds (s L H : ℚ) : Alloc → List (ℤ × ℤ)
  | [] => []
  | none :: ts => (0, 0) :: boxBounds s L H ts
  | some x :: ts => (⌈(L - x) / s⌉, ⌊(H - x) / s⌋) :: boxBounds s L H ts

/-- The termination measure of a commit streak: how many lattice points of
the box still have a strictly higher expected utility than the current
allocation. -/
def climbMeasure (eu : Alloc → ℚ) (a₀ : Alloc) (s L H : ℚ) (cur : Alloc) : ℕ :=
  ((intBoxList (boxBounds s L H a₀)).filter (fun m => eu cur < eu (recon a₀ s m))).card

/-- The streak invariant: all entries stay above `L`, the total stays below
`S`, and the vector is a canonical lattice point over the streak base. -/
def StreakInv (a₀ : Alloc) (s L S : ℚ) (cur : Alloc) : Prop :=
  (∀ k x, getTime cur k = some x → L ≤ x) ∧ sumAlloc cur ≤ S ∧
    ∃ m : List ℤ, m.length = a₀.length ∧ cur = recon a₀ s m ∧
      ∀ k, getTime a₀ k = none → m.getD k 0 = 0

/-! ### Concrete instances used by counterexamples and witnesses -/

/-- A two-node DAG of plain contract nodes (edges leaves → root). -/
def dagTwo : List PNode :=
  [{ id := 0, exprType := ExprType.contract, parents := [1], children := [], inSubtree := false },
   { id := 1, exprType := ExprType.contract, parents := [], children := [0], inSubtree := false }]

/-- An evaluator that prefers exactly the allocation `[3, 1]` (realizable by
the approximate evaluator over a profile whose node-0 quality is 1 at time 3
and 0 elsewhere, and node-1 quality is 1 at time 1 and 0 elsewhere). -/
def euPrefers31 : Alloc → ℚ := fun a =>
  if a = [some 3, some 1] then 1 else 0

/-- A conditional-branch subprogram holding allocation `[3, 1]` with budget 1. -/
def spC2 : SubProgState :=
  { budget := 1, subExpr := SubExpr.conditionalBranch, dag := dagTwo,
    alloc := [some 3, some 1] }

/-- An evaluator with a two-way tie: both `[1, 3]` and `[3, 1]` score 1,
everything else 0 (realizable by a profile whose per-node quality is the
indicator of time ∈ {1, 3}). -/
def euTie : Alloc → ℚ := fun a =>
  if a = [some 1, some 3] ∨ a = [some 3, some 1] then 1 else 0

/-- A for-body subprogram with budget 4 over `dagTwo`. -/
def spForBody : SubProgState :=
  { budget := 4, subExpr := SubExpr.forBody, dag := dagTwo, alloc := [some 2, some 2] }

/-- A trivial performance profile (all queries constant). -/
def ppTrivial : PerfProfile :=
  { findParentQualities := fun _ _ _ => []
    queryQualityList := fun _ _ _ => []
    averageQuality := fun _ => 0
    queryProbabilityContractExpression := fun _ _ => 1
    queryProbQualConditional := fun _ _ => (1, 1)
    queryProbQualFor := fun _ _ => (1, 1) }

/-- An evaluator state with no subprograms and no nodes. -/
def stEmpty : ApproxState :=
  { condSubs := [], forSubs := [], traversed := [] }

/-- An `expected_utility_type` string that is neither of the two known
ones. -/
def junkTypeStr : String :=
  "expected"

/-- An evaluator state in which node 0's transient traversed marker is left
set. -/
def stTraversed : ApproxState :=
  { condSubs := [], forSubs := [], traversed := [true] }

/-- Branch symmetry (spec §3, §8): the two children of any conditional node
carry identical time values in the allocation vector. -/
def branchSymmetric (dag : List PNode) (a : Alloc) : Prop :=
  ∀ nd ∈ dag, nd.exprType = ExprType.conditional →
    ∀ b1 ∈ nd.children, ∀ b2 ∈ nd.children, getTime a b1 = getTime a b2

instance (dag : List PNode) (a : Alloc) : Decidable (branchSymmetric dag a) :=
  inferInstanceAs (Decidable (∀ nd ∈ dag, nd.exprType = ExprType.conditional →
    ∀ b1 ∈ nd.children, ∀ b2 ∈ nd.children, getTime a b1 = getTime a b2))

/-- Both subprogram budgets of every conditional node agree. -/
def equalBudgets (subs : List (ℕ × CondPair)) : Prop :=
  ∀ q ∈ subs, q.2.trueSub.budget = q.2.falseSub.budget

/-- A 4-node DAG: root 0, conditional 1 whose two branch children are the
contract nodes 2 and 3 (edges run leaves → root, so the conditional's
children in the DAG are the roots of its two branches). -/
def dagC1 : List PNode :=
  [{ id := 0, exprType := ExprType.contract, parents := [2, 3], children := [], inSubtree := false },
   { id := 1, exprType := ExprType.conditional, parents := [], children := [2, 3], inSubtree := false },
   { id := 2, exprType := ExprType.contract, parents := [1], children := [0], inSubtree := true },
   { id := 3, exprType := ExprType.contract, parents := [1], children := [0], inSubtree := true }]

/-- An outer evaluator preferring exactly the branch-asymmetric vector
`[4, None, 0, 2]` (realizable: the conditional node's entry is null, so the
approximate evaluator scores the remaining contract nodes separately). -/
def euOuterC1 : Alloc → List (ℕ × CondPair) → ℚ := fun a _ =>
  if a = [some 4, none, some 0, some 2] then 1 else 0

/-- A constant-zero subprogram evaluator. -/
def euSubZero : ℕ → Bool → Alloc → ℚ := fun _ _ _ => 0

/-- The outer conditional search of the C1 counterexample: budget 4, decay
1.1, threshold 1, starting from the branch-symmetric vector
`[2, None, 2, 2]`. -/
def c1Run : Alloc × Alloc × Alloc :=
  naiveHillClimbingOuterConditional dagC1 euOuterC1 euSubZero 0 0 4 (11 / 10) 1 12
    [some 2, none, some 2, some 2] [] [] [] [] []

/-! ### Theorems -/

attribute [local semireducible] Rat.add Rat.sub Rat.mul Rat.inv

theorem getTime_modifyTime (a : Alloc) (i : ℕ) (f : ℚ → ℚ) (k : ℕ) :
    getTime (modifyTime a i f) k = if k = i then (getTime a i).map f else getTime a k := by
  induction a generalizing i k with
  | nil => simp [modifyTime, getTime]
  | cons t ts ih =>
    cases i with
    | zero =>
      cases k with
      | zero => simp [modifyTime, getTime]
      | succ k => simp [modifyTime, getTime]
    | succ i =>
      cases k with
      | zero => simp [modifyTime, getTime]
      | succ k =>
        have := ih i k
        simp only [modifyTime, getTime] at this ⊢
        simpa using this

theorem maxQList_mem : ∀ (x : ℚ) (xs : List ℚ), maxQList (x :: xs) ∈ x :: xs := by
  intro x xs
  induction xs generalizing x with
  | nil => simp [maxQList]
  | cons y ys ih =>
    have h : maxQList (x :: y :: ys) = maxQList (max x y :: ys) := by
      simp [maxQList]
    rw [h]
    have := ih (max x y)
    rcases List.mem_cons.mp this with h1 | h1
    · rcases max_choice x y with hm | hm
      · rw [h1, hm]; exact List.mem_cons_self _ _
      · rw [h1, hm]; exact List.mem_cons.mpr (Or.inr (List.mem_cons_self _ _))
    · exact List.mem_cons.mpr (Or.inr (List.mem_cons.mpr (Or.inr h1)))

theorem le_maxQList : ∀ (x : ℚ) (xs : List ℚ), ∀ z ∈ x :: xs, z ≤ maxQList (x :: xs) := by
  intro x xs
  induction xs generalizing x with
  | nil => intro z hz; simp at hz; simp [maxQList, hz]
  | cons y ys ih =>
    intro z hz
    have h : maxQList (x :: y :: ys) = maxQList (max x y :: ys) := by
      simp [maxQList]
    rw [h]
    rcases List.mem_cons.mp hz with h1 | h1
    · rw [h1]
      exact le_trans (le_max_left x y) (ih (max x y) _ (List.mem_cons_self _ _))
    · rcases List.mem_cons.mp h1 with h2 | h2
      · rw [h2]
        exact le_trans (le_max_right x y) (ih (max x y) _ (List.mem_cons_self _ _))
      · exact ih (max x y) z (List.mem_cons.mpr (Or.inr h2))

theorem foldl_pickLast_of_none {α : Type} (p : α → Prop) [DecidablePred p]
    (l : List α) (init : α) (h : ∀ x ∈ l, ¬ p x) :
    l.foldl (fun acc j => if p j then j else acc) init = init := by
  induction l generalizing init with
  | nil => rfl
  | cons a t ih =>
    have ha : ¬ p a := h a (List.mem_cons_self _ _)
    simp only [List.foldl_cons, if_neg ha]
    exact ih init (fun x hx => h x (List.mem_cons.mpr (Or.inr hx)))

theorem foldl_pickLast_spec {α : Type} (p : α → Prop) [DecidablePred p]
    (l : List α) (init : α) (h : ∃ x ∈ l, p x) :
    p (l.foldl (fun acc j => if p j then j else acc) init) ∧
      l.foldl (fun acc j => if p j then j else acc) init ∈ l := by
  induction l generalizing init with
  | nil => simp at h
  | cons a t ih =>
    by_cases ht : ∃ x ∈ t, p x
    · have := ih (if p a then a else init) ht
      exact ⟨this.1, List.mem_cons.mpr (Or.inr this.2)⟩
    · have ha : p a := by
        rcases h with ⟨x, hx, hpx⟩
        rcases List.mem_cons.mp hx with h1 | h1
        · rwa [h1] at hpx
        · exact absurd ⟨x, h1, hpx⟩ ht
      push_neg at ht
      simp only [List.foldl_cons, if_pos ha]
      rw [foldl_pickLast_of_none p t a ht]
      exact ⟨ha, List.mem_cons_self _ _⟩

theorem commitLast_mem_of_ne_nil (eu : Alloc → ℚ) (cands : List Alloc) (cur : Alloc)
    (h : cands ≠ []) :
    commitLast eu cands cur ∈ cands ∧
      eu (commitLast eu cands cur) = maxQList (cands.map eu) := by
  rcases cands with _ | ⟨c, cs⟩
  · exact absurd rfl h
  · have hmem : maxQList ((c :: cs).map eu) ∈ (c :: cs).map eu := by
      simpa using maxQList_mem (eu c) (cs.map eu)
    rcases List.mem_map.mp hmem with ⟨j, hj, hje⟩
    have := foldl_pickLast_spec (fun z => eu z = maxQList ((c :: cs).map eu))
      (c :: cs) cur ⟨j, hj, hje⟩
    exact ⟨this.2, this.1⟩

theorem genCands_improves (cand : Alloc → ℚ → ℕ × ℕ → Option Alloc)
    (eu : Alloc → ℚ) (a : Alloc) (s : ℚ) (c : Alloc) (h : c ∈ genCands cand eu a s) :
    eu a < eu c := by
  have := (List.mem_filter.mp h).2
  simpa using this

theorem climbRound_monotone (cand : Alloc → ℚ → ℕ × ℕ → Option Alloc)
    (eu : Alloc → ℚ) (decay : ℚ) (st : ClimbState) :
    eu st.alloc ≤ eu ((climbRound cand eu decay st).alloc) := by
  unfold climbRound
  by_cases h : (genCands cand eu st.alloc st.step).isEmpty
  · simp [h]
  · simp only [h, Bool.false_eq_true, if_false]
    have hne : genCands cand eu st.alloc st.step ≠ [] := by
      intro hc; rw [hc] at h; simp at h
    have hmem := commitLast_mem_of_ne_nil eu (genCands cand eu st.alloc st.step) st.alloc hne
    exact le_of_lt (genCands_improves cand eu st.alloc st.step _ hmem.1)

/-- The search loop never decreases the expected utility of the allocation it
carries, whatever candidate generator it is instantiated with. -/
theorem climbLoop_monotone (cand : Alloc → ℚ → ℕ × ℕ → Option Alloc)
    (eu : Alloc → ℚ) (decay threshold : ℚ) (fuel : ℕ) (st : ClimbState) :
    eu st.alloc ≤ eu ((climbLoop cand eu decay threshold fuel st).alloc) := by
  induction fuel generalizing st with
  | zero => simp [climbLoop]
  | succ n ih =>
    unfold climbLoop
    by_cases h : st.step ≤ threshold
    · simp [h]
    · simp only [h, if_false]
      exact le_trans (climbRound_monotone cand eu decay st) (ih _)

theorem foldl_pickLast_eq_find_rev {α : Type} (p : α → Prop) [DecidablePred p]
    (l : List α) (init : α) :
    l.foldl (fun acc j => if p j then j else acc) init =
      (l.reverse.find? (fun c => decide (p c))).getD init := by
  induction l generalizing init with
  | nil => rfl
  | cons a t ih =>
    simp only [List.foldl_cons, List.reverse_cons]
    rw [ih]
    rcases h : t.reverse.find? (fun c => decide (p c)) with _ | v
    · by_cases hpa : p a
      · simp [List.find?_append, h, List.find?, hpa]
      · simp [List.find?_append, h, List.find?, hpa]
    · simp [List.find?_append, h]

/-- Claim C7 counterexample: with the evaluator `euTie` (which ties the two
candidates generated from `[2, 2]` at step 1), the scanning round records
`[1, 3]` first and `[3, 1]` second, both with expected utility 1, and the
commit step commits `[3, 1]` — the last-found tied candidate, not the
first-found one.  This contradicts the claim that ties are broken by
first-found. -/
theorem c7_tie_counterexample :
    genCands baseCandidate euTie [some 2, some 2] 1 =
        [[some 1, some 3], [some 3, some 1]] ∧
      euTie [some 1, some 3] = euTie [some 3, some 1] ∧
      (climbRound baseCandidate euTie (11 / 10)
          { alloc := [some 2, some 2], step := 1 }).alloc = [some 3, some 1] ∧
      ([some 3, some 1] : Alloc) ≠ [some 1, some 3] := by
  refine ⟨by decide, by decide, by decide, by decide⟩

/-- Claim C7 as amended: at the end of a scanning round, if any candidate
local maxima were recorded the search commits to the candidate with the
highest expected utility, ties broken by LAST-found (the commit loop has no
break, so each tied candidate overwrites the previous one); only if no
candidate was recorded is the step divided by the decay.  Stated as: the
commit selection equals the last recorded candidate achieving the maximum,
its expected utility is that maximum, and the round decays exactly on an
empty candidate list. -/
theorem c7_amended_commit_last_found :
    (∀ (eu : Alloc → ℚ) (cands : List Alloc) (cur : Alloc),
      commitLast eu cands cur =
        (cands.reverse.find? (fun c => decide (eu c = maxQList (cands.map eu)))).getD cur) ∧
    (∀ (eu : Alloc → ℚ) (cands : List Alloc) (cur : Alloc), cands ≠ [] →
      eu (commitLast eu cands cur) = maxQList (cands.map eu)) ∧
    (∀ (cand : Alloc → ℚ → ℕ × ℕ → Option Alloc) (eu : Alloc → ℚ) (decay : ℚ)
      (st : ClimbState), genCands cand eu st.alloc st.step = [] →
      climbRound cand eu decay st = { alloc := st.alloc, step := st.step / decay }) ∧
    (∀ (cand : Alloc → ℚ → ℕ × ℕ → Option Alloc) (eu : Alloc → ℚ) (decay : ℚ)
      (st : ClimbState), genCands cand eu st.alloc st.step ≠ [] →
      climbRound cand eu decay st =
        { alloc := commitLast eu (genCands cand eu st.alloc st.step) st.alloc,
          step := st.step }) := by
  refine ⟨?_, ?_, ?_, ?_⟩
  · intro eu cands cur
    exact foldl_pickLast_eq_find_rev (fun c => eu c = maxQList (cands.map eu)) cands cur
  · intro eu cands cur h
    exact (commitLast_mem_of_ne_nil eu cands cur h).2
  · intro cand eu decay st h
    unfold climbRound
    simp [h]
  · intro cand eu decay st h
    unfold climbRound
    have : (genCands cand eu st.alloc st.step).isEmpty = false := by
      rcases hc : genCands cand eu st.alloc st.step with _ | _
      · exact absurd hc h
      · simp
    simp [this]

/-- Witness for `c7_amended_commit_last_found`: instantiated on the `euTie`
round of the counterexample, discharging the non-empty hypotheses there. -/
theorem c7_amended_commit_last_found_witness :
    euTie (commitLast euTie (genCands baseCandidate euTie [some 2, some 2] 1)
        [some 2, some 2]) =
      maxQList ((genCands baseCandidate euTie [some 2, some 2] 1).map euTie) ∧
    climbRound baseCandidate euTie (11 / 10) { alloc := [some 2, some 2], step := 1 } =
      { alloc := commitLast euTie (genCands baseCandidate euTie [some 2, some 2] 1)
          [some 2, some 2],
        step := 1 } := by
  constructor
  · exact c7_amended_commit_last_found.2.1 euTie _ [some 2, some 2] (by decide)
  · exact c7_amended_commit_last_found.2.2.2 baseCandidate euTie (11 / 10)
      { alloc := [some 2, some 2], step := 1 } (by decide)

/-- Claim C2 counterexample: `naive_hill_climbing_inner` on the
conditional-branch subprogram `spC2` (budget 1, `tau = 2`, so the taxed
budget is negative) zeroes the allocation `[3, 1]` to `[0, 0]` without
recording any candidate, and under the evaluator `euPrefers31` the returned
allocation's expected utility 0 is strictly below the initial allocation's
expected utility 1 — refuting "after any hill-climbing run the expected
utility of the returned allocation ≥ that of the initial allocation". -/
theorem c2_monotonicity_counterexample :
    (naiveHillClimbingInner euPrefers31 2 (11 / 10) (1 / 100) 5 spC2).alloc =
        [some 0, some 0] ∧
      euPrefers31 ((naiveHillClimbingInner euPrefers31 2 (11 / 10) (1 / 100) 5 spC2).alloc) <
        euPrefers31 spC2.alloc := by
  refine ⟨by decide, by decide⟩

/-- Claim C2 as amended: the shared search loop (hence the
no-children/no-parents variant for any budget and fuel) never decreases the
expected utility of the allocation it starts from, because a candidate is
recorded only when its expected utility strictly exceeds the current one and
only recorded candidates are committed; the inner variant guarantees this
only relative to its re-initialised allocation — the uniform budget when the
taxed budget is positive — not relative to the caller's initial
allocation. -/
theorem c2_amended_monotonicity :
    (∀ (cand : Alloc → ℚ → ℕ × ℕ → Option Alloc) (eu : Alloc → ℚ)
      (decay threshold : ℚ) (fuel : ℕ) (st : ClimbState),
      eu st.alloc ≤ eu ((climbLoop cand eu decay threshold fuel st).alloc)) ∧
    (∀ (eu : Alloc → ℚ) (dag : List PNode) (budget : ℚ) (alloc : Alloc)
      (decay threshold : ℚ) (fuel : ℕ),
      eu alloc ≤ eu (naiveHillClimbingNoChildrenNoParents eu dag budget alloc decay threshold fuel)) ∧
    (∀ (eu : Alloc → ℚ) (tau decay threshold : ℚ) (fuel : ℕ) (sp : SubProgState),
      0 < taxedBudget sp tau →
      eu (uniformBudget sp.dag sp.budget tau) ≤
        eu ((naiveHillClimbingInner eu tau decay threshold fuel sp).alloc)) := by
  refine ⟨?_, ?_, ?_⟩
  · intro cand eu decay threshold fuel st
    exact climbLoop_monotone cand eu decay threshold fuel st
  · intro eu dag budget alloc decay threshold fuel
    exact climbLoop_monotone baseCandidate eu decay threshold fuel _
  · intro eu tau decay threshold fuel sp h
    unfold naiveHillClimbingInner
    simp only [if_pos h]
    exact climbLoop_monotone (innerCandidate sp.dag) eu decay threshold fuel _

/-- Witness for `c2_amended_monotonicity`: the inner-variant conjunct applied
to a for-body subprogram with positive budget. -/
theorem c2_amended_monotonicity_witness :
    (0 : ℚ) < taxedBudget spForBody 2 ∧
    euPrefers31 (uniformBudget dagTwo 4 2) ≤
      euPrefers31 ((naiveHillClimbingInner euPrefers31 2 (11 / 10) (1 / 100) 3 spForBody).alloc) := by
  refine ⟨by decide, ?_⟩
  exact c2_amended_monotonicity.2.2 euPrefers31 2 (11 / 10) (1 / 100) 3 spForBody (by decide)

theorem getTime_zeroFrom (dag : List PNode) (a : Alloc) :
    ∀ (k i : ℕ), getTime (zeroFrom dag k a) i =
      (getTime a i).map
        (fun x => if exprTypeOf dag (k + i) = ExprType.conditional then x else 0) := by
  induction a with
  | nil => intro k i; simp [zeroFrom, getTime]
  | cons t ts ih =>
    intro k i
    cases t with
    | none =>
      cases i with
      | zero => simp [zeroFrom, getTime]
      | succ i =>
        have := ih (k + 1) i
        simp only [zeroFrom, getTime] at this ⊢
        simpa [Nat.add_assoc, Nat.add_comm 1 i] using this
    | some x =>
      cases i with
      | zero =>
        simp only [zeroFrom, getTime, List.getD_cons_zero, Nat.add_zero, Option.map_some]
        split <;> rfl
      | succ i =>
        have := ih (k + 1) i
        simp only [zeroFrom, getTime] at this ⊢
        simpa [Nat.add_assoc, Nat.add_comm 1 i] using this

/-- Claim C8: the inner search's taxed budget is `budget - tau` for a
conditional branch and `budget` for a for body; whenever the taxed budget is
≤ 0 the inner search performs no search and immediately returns after
zeroing the time of every non-null, non-conditional node allocation in the
subprogram (null times stay null, conditional nodes keep their time, and the
result does not depend on the evaluator, the decay, the threshold or the
fuel). -/
theorem c8_inner_degenerate_case :
    (∀ (sp : SubProgState) (tau : ℚ), sp.subExpr = SubExpr.conditionalBranch →
      taxedBudget sp tau = sp.budget - tau) ∧
    (∀ (sp : SubProgState) (tau : ℚ), sp.subExpr = SubExpr.forBody →
      taxedBudget sp tau = sp.budget) ∧
    (∀ (eu : Alloc → ℚ) (tau decay threshold : ℚ) (fuel : ℕ) (sp : SubProgState),
      taxedBudget sp tau ≤ 0 →
      naiveHillClimbingInner eu tau decay threshold fuel sp =
        { sp with alloc := zeroNonConditional sp.dag sp.alloc } ∧
      (∀ k x, getTime sp.alloc k = some x → exprTypeOf sp.dag k ≠ ExprType.conditional →
        getTime (naiveHillClimbingInner eu tau decay threshold fuel sp).alloc k = some 0) ∧
      (∀ k x, getTime sp.alloc k = some x → exprTypeOf sp.dag k = ExprType.conditional →
        getTime (naiveHillClimbingInner eu tau decay threshold fuel sp).alloc k = some x) ∧
      (∀ k, getTime sp.alloc k = none →
        getTime (naiveHillClimbingInner eu tau decay threshold fuel sp).alloc k = none)) := by
  refine ⟨?_, ?_, ?_⟩
  · intro sp tau h; simp [taxedBudget, h]
  · intro sp tau h; simp [taxedBudget, h]
  · intro eu tau decay threshold fuel sp h
    have hno : ¬ 0 < taxedBudget sp tau := not_lt.mpr h
    have heq : naiveHillClimbingInner eu tau decay threshold fuel sp =
        { sp with alloc := zeroNonConditional sp.dag sp.alloc } := by
      unfold naiveHillClimbingInner
      simp [hno]
    refine ⟨heq, ?_, ?_, ?_⟩
    · intro k x hx hnc
      rw [heq]
      show getTime (zeroNonConditional sp.dag sp.alloc) k = some 0
      rw [zeroNonConditional, getTime_zeroFrom, hx]
      simp [hnc]
    · intro k x hx hc
      rw [heq]
      show getTime (zeroNonConditional sp.dag sp.alloc) k = some x
      rw [zeroNonConditional, getTime_zeroFrom, hx]
      simp [hc]
    · intro k hx
      rw [heq]
      show getTime (zeroNonConditional sp.dag sp.alloc) k = none
      rw [zeroNonConditional, getTime_zeroFrom, hx]
      rfl

/-- Witness for `c8_inner_degenerate_case`: the degenerate conjunct applied
to the conditional-branch subprogram `spC2` with `tau = 2`, whose taxed
budget `1 - 2` is negative. -/
theorem c8_inner_degenerate_case_witness :
    taxedBudget spC2 2 ≤ 0 ∧
    naiveHillClimbingInner euPrefers31 2 (11 / 10) (1 / 100) 5 spC2 =
      { spC2 with alloc := zeroNonConditional spC2.dag spC2.alloc } := by
  refine ⟨by decide, ?_⟩
  exact (c8_inner_degenerate_case.2.2 euPrefers31 2 (11 / 10) (1 / 100) 5 spC2 (by decide)).1

/-- Claim C10: the expected-utility dispatcher raises
`ValueError("Improper expected utility type")` on every call whose
`expected_utility_type` is neither `"exact"` nor `"approximate"` (in
particular on the first call), and for the two known values it dispatches to
the corresponding evaluator and raises no such error. -/
theorem c10_dispatch_unknown_type_fatal :
    (∀ pp dag ord genOrder possibleQ exactFuel t st ta origInner,
      t ≠ exactStr → t ≠ approxStr →
      globalExpectedUtilityDispatch pp dag ord genOrder possibleQ exactFuel t st ta origInner =
        Except.error improperTypeMsg) ∧
    (∀ pp dag ord genOrder possibleQ exactFuel st ta origInner,
      globalExpectedUtilityDispatch pp dag ord genOrder possibleQ exactFuel exactStr st ta
          origInner =
        Except.ok (globalExpectedUtilityExact pp dag ord genOrder possibleQ exactFuel ta
          origInner)) ∧
    (∀ pp dag ord genOrder possibleQ exactFuel st ta origInner,
      globalExpectedUtilityDispatch pp dag ord genOrder possibleQ exactFuel approxStr st ta
          origInner =
        Except.ok (globalExpectedUtilityApproximate pp dag ta origInner st).1) := by
  refine ⟨?_, ?_, ?_⟩
  · intro pp dag ord genOrder possibleQ exactFuel t st ta origInner h1 h2
    unfold globalExpectedUtilityDispatch
    simp [h1, h2]
  · intro pp dag ord genOrder possibleQ exactFuel st ta origInner
    rfl
  · intro pp dag ord genOrder possibleQ exactFuel st ta origInner
    unfold globalExpectedUtilityDispatch
    have : approxStr ≠ exactStr := by decide
    simp [this]


/-- Witness for `c10_dispatch_unknown_type_fatal`: the unknown-type conjunct
applied to the junk type string. -/
theorem c10_dispatch_unknown_type_fatal_witness :
    junkTypeStr ≠ exactStr ∧ junkTypeStr ≠ approxStr ∧
    globalExpectedUtilityDispatch ppTrivial dagTwo 2 2 [] 3 junkTypeStr stEmpty
        [some 1, some 1] none =
      Except.error improperTypeMsg := by
  refine ⟨by decide, by decide, ?_⟩
  exact c10_dispatch_unknown_type_fatal.1 ppTrivial dagTwo 2 2 [] 3 junkTypeStr stEmpty
    [some 1, some 1] none (by decide) (by decide)

/-- Claim C4: `global_expected_utility_exact` unconditionally returns
`find_exact_expected_utility` applied to the DAG's terminal leaves with an
empty parent-quality context (depth 0, `expected_utility` 1, all-null
current qualities of the generator order, sum 0) before any per-node loop
runs, and the `original_allocations_inner` argument has no effect on its
result — the conditional- and for-expression handling after the `return` is
unreachable. -/
theorem c4_exact_early_return :
    (∀ pp dag ord genOrder possibleQ fuel ta origInner,
      globalExpectedUtilityExact pp dag ord genOrder possibleQ fuel ta origInner =
        (findExactCall pp dag ord possibleQ ta fuel (findTerminalLeavesInDag dag) 0
          { eu := 1, currentQ := List.replicate genOrder none, parentQ := [],
            tally := 0 }).1) ∧
    (∀ pp dag ord genOrder possibleQ fuel ta o o',
      globalExpectedUtilityExact pp dag ord genOrder possibleQ fuel ta o =
        globalExpectedUtilityExact pp dag ord genOrder possibleQ fuel ta o') := by
  exact ⟨fun _ _ _ _ _ _ _ _ => rfl, fun _ _ _ _ _ _ _ _ _ => rfl⟩

theorem updateSub_updateSub (l : List (ℕ × CondPair)) (i : ℕ) (a b : CondPair) :
    updateSub (updateSub l i a) i b = updateSub l i b := by
  induction l with
  | nil => rfl
  | cons p ps ih =>
    by_cases hp : p.1 = i
    · simp [updateSub, hp]
    · simp [updateSub, hp, ih]

theorem updateSub_self (l : List (ℕ × CondPair)) (i : ℕ) (v : CondPair)
    (h : lookupSub l i = some v) : updateSub l i v = l := by
  induction l with
  | nil => simp [lookupSub] at h
  | cons p ps ih =>
    by_cases hp : p.1 = i
    · have hv : v = p.2 := by
        simp [lookupSub, List.find?, hp] at h
        exact h.symm
      have hpp : p = (i, v) := by
        rw [hv, ← hp]
      simp [updateSub, hp, hpp]
    · have hl : lookupSub ps i = some v := by
        simpa [lookupSub, List.find?, hp] using h
      simp [updateSub, hp, ih hl]

theorem updateForSub_updateForSub (l : List (ℕ × SubProgState)) (i : ℕ)
    (a b : SubProgState) :
    updateForSub (updateForSub l i a) i b = updateForSub l i b := by
  induction l with
  | nil => rfl
  | cons p ps ih =>
    by_cases hp : p.1 = i
    · simp [updateForSub, hp]
    · simp [updateForSub, hp, ih]

theorem updateForSub_self (l : List (ℕ × SubProgState)) (i : ℕ) (v : SubProgState)
    (h : lookupForSub l i = some v) : updateForSub l i v = l := by
  induction l with
  | nil => simp [lookupForSub] at h
  | cons p ps ih =>
    by_cases hp : p.1 = i
    · have hv : v = p.2 := by
        simp [lookupForSub, List.find?, hp] at h
        exact h.symm
      have hpp : p = (i, v) := by
        rw [hv, ← hp]
      simp [updateForSub, hp, hpp]
    · have hl : lookupForSub ps i = some v := by
        simpa [lookupForSub, List.find?, hp] using h
      simp [updateForSub, hp, ih hl]

theorem approxStep_state (pp : PerfProfile) (dag : List PNode) (ta : Alloc)
    (origInner : Option (List Alloc)) (acc : ℚ × List ℚ × ApproxState) (e : ℕ × ℚ) :
    (approxStep pp dag ta origInner acc e).2.2 = acc.2.2 := by
  obtain ⟨prob, quals, cs, fs, tr⟩ := acc
  unfold approxStep
  rcases hnd : findNode dag e.1 with _ | nd
  · rfl
  · simp only []
    by_cases h1 : (nd.exprType = ExprType.conditional ∨ nd.exprType = ExprType.forLoop) ∧
        nd.inSubtree = true
    · rw [if_pos h1]
    · rw [if_neg h1]
      by_cases h2 : nd.exprType = ExprType.conditional ∧ nd.inSubtree = false
      · rw [if_pos h2]
        rcases hlu : lookupSub cs nd.id with _ | pr
        · rfl
        · simp only []
          by_cases ht : truthyInner origInner = true
          · rw [if_pos ht]
            have hpr : ({ trueSub := { pr.trueSub with alloc := pr.trueSub.alloc }, falseSub := { pr.falseSub with alloc := pr.falseSub.alloc } } : CondPair) = pr := rfl
            show ApproxState.mk (updateSub (updateSub cs nd.id _) nd.id _) fs tr = ApproxState.mk cs fs tr
            rw [updateSub_updateSub, hpr, updateSub_self _ _ _ hlu]
          · rw [if_neg ht]
      · rw [if_neg h2]
        by_cases h3 : nd.exprType = ExprType.forLoop ∧ nd.inSubtree = false
        · rw [if_pos h3]
          rcases hlu : lookupForSub fs nd.id with _ | sb
          · rfl
          · simp only []
            by_cases ht : truthyInner origInner = true
            · rw [if_pos ht]
              have hsb : ({ sb with alloc := sb.alloc } : SubProgState) = sb := rfl
              show ApproxState.mk cs (updateForSub (updateForSub fs nd.id _) nd.id _) tr = ApproxState.mk cs fs tr
              rw [updateForSub_updateForSub, hsb, updateForSub_self _ _ _ hlu]
            · rw [if_neg ht]
        · rw [if_neg h3]

theorem approxFold_state (pp : PerfProfile) (dag : List PNode) (ta : Alloc)
    (origInner : Option (List Alloc)) :
    ∀ (l : List (ℕ × ℚ)) (acc : ℚ × List ℚ × ApproxState),
      (l.foldl (approxStep pp dag ta origInner) acc).2.2 = acc.2.2 := by
  intro l
  induction l with
  | nil => intro acc; rfl
  | cons e t ih =>
    intro acc
    rw [List.foldl_cons, ih, approxStep_state]

/-- The approximate evaluator's net effect on the program state is the
identity: every set-then-restore pair cancels and the traversed markers are
never touched. -/
theorem globalApproximate_state (pp : PerfProfile) (dag : List PNode) (ta : Alloc)
    (origInner : Option (List Alloc)) (st : ApproxState) :
    (globalExpectedUtilityApproximate pp dag ta origInner st).2 = st := by
  unfold globalExpectedUtilityApproximate
  exact approxFold_state pp dag ta origInner (refactoredEntries ta) (1, [], st)

/-- Claim C6: after every call to the approximate evaluator — in particular
every call in which `original_allocations_inner` is supplied for a
non-in-subtree conditional or for node — each subprogram's allocations field
equals its value before the call: the override is substituted only for the
duration of the profile query and the saved originals are then restored. -/
theorem c6_override_substitution_state_preserving :
    ∀ (pp : PerfProfile) (dag : List PNode) (ta : Alloc)
      (origInner : Option (List Alloc)) (st : ApproxState),
      ((globalExpectedUtilityApproximate pp dag ta origInner st).2).condSubs = st.condSubs ∧
      ((globalExpectedUtilityApproximate pp dag ta origInner st).2).forSubs = st.forSubs := by
  intro pp dag ta origInner st
  rw [globalApproximate_state]
  exact ⟨rfl, rfl⟩

/-- Claim C5 counterexample: calling the approximate evaluator on a state in
which node 0's transient traversed marker is set leaves the marker set — the
evaluator contains no reset of the traversed flags, so it is false that
"after each call the transient traversed marker of every node in the DAG is
false". -/
theorem c5_no_traversed_reset_counterexample :
    ((globalExpectedUtilityApproximate ppTrivial dagTwo [some 1, some 1] none
        stTraversed).2).traversed = [true] ∧
      ((globalExpectedUtilityApproximate ppTrivial dagTwo [some 1, some 1] none
        stTraversed).2).traversed ≠ [false] := by
  constructor
  · rw [globalApproximate_state]
    rfl
  · rw [globalApproximate_state]
    decide

/-- Claim C5 as amended: the approximate evaluator is deterministic —
calling it twice with the same allocation yields the same expected utility,
the first call leaving the program state (in particular every node's
transient traversed marker) exactly as it found it; the evaluator never
touches the markers, so they are false after a call exactly when they were
false before, rather than being reset by the evaluator. -/
theorem c5_amended_purity :
    ∀ (pp : PerfProfile) (dag : List PNode) (ta : Alloc)
      (origInner : Option (List Alloc)) (st : ApproxState),
      (globalExpectedUtilityApproximate pp dag ta origInner
          ((globalExpectedUtilityApproximate pp dag ta origInner st).2)).1 =
        (globalExpectedUtilityApproximate pp dag ta origInner st).1 ∧
      ((globalExpectedUtilityApproximate pp dag ta origInner st).2).traversed =
        st.traversed := by
  intro pp dag ta origInner st
  constructor
  · rw [globalApproximate_state]
  · rw [globalApproximate_state]

theorem allocNonneg_iff (a : Alloc) : allocNonneg a ↔ ∀ t ∈ a, entryNonneg t := by
  constructor
  · intro h t ht
    cases t with
    | none => trivial
    | some x =>
      rcases List.get_of_mem ht with ⟨n, hn⟩
      have : getTime a n = some x := by
        have hlt : (n : ℕ) < a.length := n.isLt
        simp [getTime, List.getD_eq_getElem?_getD, List.getElem?_eq_getElem hlt, ← hn]
      exact h n x this
  · intro h k x hk
    rcases hget : a[k]? with _ | v
    · rw [getTime, List.getD_eq_getElem?_getD, hget] at hk
      simp at hk
    · rw [getTime, List.getD_eq_getElem?_getD, hget] at hk
      simp at hk
      subst hk
      have hmem : some x ∈ a := List.getElem?_mem hget
      exact h (some x) hmem

theorem baseCandidate_shape (a : Alloc) (s : ℚ) (p : ℕ × ℕ) (c : Alloc)
    (h : baseCandidate a s p = some c) : isGuardedTransfer a s c := by
  unfold baseCandidate at h
  by_cases hp : p.1 = p.2
  · simp [hp] at h
  · rw [if_neg hp] at h
    rcases ht : getTime a p.1 with _ | t0
    · rw [ht] at h; exact absurd h (by simp)
    · rw [ht] at h
      simp only [] at h
      by_cases hg : t0 - s < 0
      · simp [hg] at h
      · rw [if_neg hg] at h
        exact ⟨p.1, p.2, t0, hp, ht, hg, (Option.some_inj.mp h).symm⟩

theorem innerCandidate_shape (dag : List PNode) (a : Alloc) (s : ℚ) (p : ℕ × ℕ)
    (c : Alloc) (h : innerCandidate dag a s p = some c) : isGuardedTransfer a s c := by
  unfold innerCandidate at h
  by_cases hp : p.1 = p.2
  · simp [hp] at h
  · rw [if_neg hp] at h
    by_cases h1 : exprTypeOf dag p.1 = ExprType.conditional ∨
        exprTypeOf dag p.2 = ExprType.conditional
    · simp [h1] at h
    · rw [if_neg h1] at h
      by_cases h2 : exprTypeOf dag p.1 = ExprType.forLoop ∨
          exprTypeOf dag p.2 = ExprType.forLoop
      · simp [h2] at h
      · rw [if_neg h2] at h
        rcases ht : getTime a p.1 with _ | t0
        · rw [ht] at h; exact absurd h (by simp)
        · rw [ht] at h
          simp only [] at h
          by_cases hg : t0 - s < 0
          · simp [hg] at h
          · rw [if_neg hg] at h
            exact ⟨p.1, p.2, t0, hp, ht, hg, (Option.some_inj.mp h).symm⟩

theorem genCands_shape (cand : Alloc → ℚ → ℕ × ℕ → Option Alloc) (eu : Alloc → ℚ)
    (a : Alloc) (s : ℚ) (c : Alloc)
    (H : ∀ p c, cand a s p = some c → isGuardedTransfer a s c)
    (hc : c ∈ genCands cand eu a s) : isGuardedTransfer a s c := by
  have h1 := (List.mem_filter.mp hc).1
  rcases List.mem_filterMap.mp h1 with ⟨p, _, hp⟩
  exact H p c hp

theorem allocNonneg_transferTime (a : Alloc) (i j : ℕ) (s t0 : ℚ) (hs : 0 ≤ s)
    (hi : getTime a i = some t0) (hg : ¬ t0 - s < 0) (h : allocNonneg a) :
    allocNonneg (transferTime a i j s) := by
  intro k x hk
  rw [transferTime, getTime_modifyTime] at hk
  by_cases hkj : k = j
  · rw [if_pos hkj, getTime_modifyTime] at hk
    by_cases hji : j = i
    · rw [if_pos hji, hi] at hk
      simp at hk
      rw [← hk]
      have := not_lt.mp hg
      linarith
    · rw [if_neg hji] at hk
      rcases hy : getTime a j with _ | y
      · rw [hy] at hk; simp at hk
      · rw [hy] at hk
        simp at hk
        have := h j y hy
        linarith [hk]
  · rw [if_neg hkj, getTime_modifyTime] at hk
    by_cases hki : k = i
    · rw [if_pos hki, hi] at hk
      simp at hk
      have := not_lt.mp hg
      linarith [hk]
    · rw [if_neg hki] at hk
      exact h k x hk

theorem climbRound_nonneg (cand : Alloc → ℚ → ℕ × ℕ → Option Alloc) (eu : Alloc → ℚ)
    (decay : ℚ) (st : ClimbState)
    (H : ∀ p c, cand st.alloc st.step p = some c → isGuardedTransfer st.alloc st.step c)
    (hs : 0 ≤ st.step) (hd : 0 < decay) (h : allocNonneg st.alloc) :
    allocNonneg (climbRound cand eu decay st).alloc ∧
      0 ≤ (climbRound cand eu decay st).step := by
  unfold climbRound
  by_cases he : (genCands cand eu st.alloc st.step).isEmpty
  · simp only [he, if_true]
    exact ⟨h, div_nonneg hs (le_of_lt hd)⟩
  · simp only [he, Bool.false_eq_true, if_false]
    refine ⟨?_, hs⟩
    have hne : genCands cand eu st.alloc st.step ≠ [] := by
      intro hc; rw [hc] at he; simp at he
    have hmem := (commitLast_mem_of_ne_nil eu _ st.alloc hne).1
    rcases genCands_shape cand eu st.alloc st.step _ H hmem with ⟨i, j, t0, _, hi, hg, hceq⟩
    rw [hceq]
    exact allocNonneg_transferTime st.alloc i j st.step t0 hs hi hg h

theorem climbLoop_nonneg (cand : Alloc → ℚ → ℕ × ℕ → Option Alloc) (eu : Alloc → ℚ)
    (decay threshold : ℚ) (fuel : ℕ) (st : ClimbState)
    (Hc : ∀ a s p c, cand a s p = some c → isGuardedTransfer a s c)
    (hs : 0 ≤ st.step) (hd : 0 < decay) (h : allocNonneg st.alloc) :
    allocNonneg (climbLoop cand eu decay threshold fuel st).alloc := by
  induction fuel generalizing st with
  | zero => exact h
  | succ n ih =>
    unfold climbLoop
    by_cases hth : st.step ≤ threshold
    · simp only [hth, if_true]; exact h
    · simp only [hth, if_false]
      have hr := climbRound_nonneg cand eu decay st (Hc st.alloc st.step) hs hd h
      exact ih _ hr.2 hr.1

theorem allocNonneg_zeroNonConditional (dag : List PNode) (a : Alloc)
    (h : allocNonneg a) : allocNonneg (zeroNonConditional dag a) := by
  intro k x hk
  rw [zeroNonConditional, getTime_zeroFrom] at hk
  rcases hy : getTime a k with _ | y
  · rw [hy] at hk; simp at hk
  · rw [hy] at hk
    simp only [Option.map_some', Option.some_inj, Nat.zero_add] at hk
    by_cases hc : exprTypeOf dag k = ExprType.conditional
    · rw [if_pos hc] at hk
      rw [← hk]
      exact h k y hy
    · rw [if_neg hc] at hk
      rw [← hk]

theorem outerPairStep_plm (dag : List PNode) (euOuter : Alloc → List (ℕ × CondPair) → ℚ)
    (euSub : ℕ → Bool → Alloc → ℚ) (tau : ℚ) (innerFuel : ℕ) (cur : Alloc)
    (origT origF : Alloc) (s : ℚ) (sc : OuterScan) (p : ℕ × ℕ)
    (hcur : allocNonneg cur) (hs : 0 ≤ s) (h : ∀ j ∈ sc.plm, allocNonneg j.1) :
    ∀ j ∈ (outerPairStep dag euOuter euSub tau innerFuel cur origT origF s sc p).plm,
      allocNonneg j.1 := by
  unfold outerPairStep
  by_cases hp : p.1 = p.2
  · rw [if_pos hp]; exact h
  · rw [if_neg hp]
    rcases ht : getTime cur p.1 with _ | t0
    · exact h
    · simp only []
      by_cases hg : t0 - s < 0
      · rw [if_pos hg]; exact h
      · rw [if_neg hg]
        intro j hj
        simp only [] at hj
        split at hj
        · rcases List.mem_append.mp hj with hjl | hjr
          · exact h j hjl
          · simp at hjr
            rw [hjr]
            exact allocNonneg_transferTime cur p.1 p.2 s t0 hs ht hg hcur
        · exact h j hj

theorem outerScanFold_plm (dag : List PNode) (euOuter : Alloc → List (ℕ × CondPair) → ℚ)
    (euSub : ℕ → Bool → Alloc → ℚ) (tau : ℚ) (innerFuel : ℕ) (cur : Alloc)
    (origT origF : Alloc) (s : ℚ) (hcur : allocNonneg cur) (hs : 0 ≤ s) :
    ∀ (ps : List (ℕ × ℕ)) (sc : OuterScan), (∀ j ∈ sc.plm, allocNonneg j.1) →
      ∀ j ∈ (ps.foldl (outerPairStep dag euOuter euSub tau innerFuel cur origT origF s)
        sc).plm, allocNonneg j.1 := by
  intro ps
  induction ps with
  | nil => intro sc h; exact h
  | cons p pt ih =>
    intro sc h
    rw [List.foldl_cons]
    exact ih _ (outerPairStep_plm dag euOuter euSub tau innerFuel cur origT origF s sc p
      hcur hs h)

theorem outerCondRound_nonneg (dag : List PNode)
    (euOuter : Alloc → List (ℕ × CondPair) → ℚ) (euSub : ℕ → Bool → Alloc → ℚ)
    (tau : ℚ) (innerFuel : ℕ) (decay : ℚ) (st : OuterCondState)
    (hs : 0 ≤ st.step) (hd : 0 < decay) (h : allocNonneg st.alloc) :
    allocNonneg (outerCondRound dag euOuter euSub tau innerFuel decay st).alloc ∧
      0 ≤ (outerCondRound dag euOuter euSub tau innerFuel decay st).step := by
  unfold outerCondRound
  simp only []
  by_cases he : ((orderedPairs (nonNullIds st.alloc)).foldl
      (outerPairStep dag euOuter euSub tau innerFuel st.alloc st.origTrue st.origFalse
        st.step)
      { subs := st.subs, trueVar := st.trueVar, falseVar := st.falseVar, plm := [] }).plm.isEmpty
  · rw [if_pos he]
    exact ⟨h, div_nonneg hs (le_of_lt hd)⟩
  · rw [if_neg he]
    refine ⟨?_, hs⟩
    set sc := (orderedPairs (nonNullIds st.alloc)).foldl
      (outerPairStep dag euOuter euSub tau innerFuel st.alloc st.origTrue st.origFalse
        st.step)
      { subs := st.subs, trueVar := st.trueVar, falseVar := st.falseVar, plm := [] } with hsc
    have hplm : ∀ j ∈ sc.plm, allocNonneg j.1 := by
      rw [hsc]
      exact outerScanFold_plm dag euOuter euSub tau innerFuel st.alloc st.origTrue
        st.origFalse st.step h hs (orderedPairs (nonNullIds st.alloc)) _ (by intro j hj; simp at hj)
    have hne : sc.plm ≠ [] := by
      intro hc; rw [hc] at he; simp at he
    rcases hnil : sc.plm with _ | ⟨c0, cr⟩
    · exact absurd hnil hne
    · have hattain : maxQList ((c0 :: cr).map (fun j => euOuter j.1 sc.subs)) ∈
          (c0 :: cr).map (fun j => euOuter j.1 sc.subs) := by
        simpa using maxQList_mem (euOuter c0.1 sc.subs) (cr.map (fun j => euOuter j.1 sc.subs))
      rcases List.mem_map.mp hattain with ⟨jw, hjw, hjwe⟩
      have hspec := foldl_pickLast_spec
        (fun j => euOuter j.1 sc.subs = maxQList ((c0 :: cr).map (fun j => euOuter j.1 sc.subs)))
        (c0 :: cr) (st.alloc, st.origTrue, st.origFalse) ⟨jw, hjw, hjwe⟩
      rw [hnil] at hplm
      exact hplm _ hspec.2

theorem outerCondLoop_nonneg (dag : List PNode)
    (euOuter : Alloc → List (ℕ × CondPair) → ℚ) (euSub : ℕ → Bool → Alloc → ℚ)
    (tau : ℚ) (innerFuel : ℕ) (decay threshold : ℚ) (fuel : ℕ) (st : OuterCondState)
    (hs : 0 ≤ st.step) (hd : 0 < decay) (h : allocNonneg st.alloc) :
    allocNonneg (outerCondLoop dag euOuter euSub tau innerFuel decay threshold fuel
      st).alloc := by
  induction fuel generalizing st with
  | zero => exact h
  | succ n ih =>
    unfold outerCondLoop
    by_cases hth : st.step ≤ threshold
    · simp only [hth, if_true]; exact h
    · simp only [hth, if_false]
      have hr := outerCondRound_nonneg dag euOuter euSub tau innerFuel decay st hs hd h
      exact ih _ hr.2 hr.1

/-- Claim C9: a candidate pair whose transfer would drive the source node's
time below zero is skipped (the candidate is simply not generated — no
error), and consequently every variant's search loop preserves
non-negativity: starting from an allocation with no negative non-null time
(and a non-negative step and positive decay), every allocation it commits —
in particular the returned one — contains no negative time value.  Stated
for the base search, the inner search (whose re-initialised uniform
allocation is assumed non-negative) and the outer conditional search. -/
theorem c9_nonnegativity_by_silent_skip :
    (∀ (a : Alloc) (s : ℚ) (p : ℕ × ℕ) (t0 : ℚ), getTime a p.1 = some t0 → t0 - s < 0 →
      baseCandidate a s p = none ∧ ∀ dag, innerCandidate dag a s p = none) ∧
    (∀ (eu : Alloc → ℚ) (dag : List PNode) (budget : ℚ) (alloc : Alloc)
      (decay threshold : ℚ) (fuel : ℕ), 0 ≤ budget → 0 < decay → allocNonneg alloc →
      allocNonneg (naiveHillClimbingNoChildrenNoParents eu dag budget alloc decay threshold
        fuel)) ∧
    (∀ (eu : Alloc → ℚ) (tau decay threshold : ℚ) (fuel : ℕ) (sp : SubProgState),
      0 ≤ sp.budget → 0 < decay → allocNonneg (uniformBudget sp.dag sp.budget tau) →
      allocNonneg sp.alloc →
      allocNonneg ((naiveHillClimbingInner eu tau decay threshold fuel sp).alloc)) ∧
    (∀ (dag : List PNode) (euOuter : Alloc → List (ℕ × CondPair) → ℚ)
      (euSub : ℕ → Bool → Alloc → ℚ) (tau : ℚ) (innerFuel : ℕ)
      (decay threshold : ℚ) (fuel : ℕ) (st : OuterCondState),
      0 ≤ st.step → 0 < decay → allocNonneg st.alloc →
      allocNonneg ((outerCondLoop dag euOuter euSub tau innerFuel decay threshold fuel
        st).alloc)) := by
  refine ⟨?_, ?_, ?_, ?_⟩
  · intro a s p t0 ht hg
    constructor
    · unfold baseCandidate
      by_cases hp : p.1 = p.2
      · rw [if_pos hp]
      · rw [if_neg hp, ht]
        simp [hg]
    · intro dag
      unfold innerCandidate
      by_cases hp : p.1 = p.2
      · rw [if_pos hp]
      · rw [if_neg hp]
        by_cases h1 : exprTypeOf dag p.1 = ExprType.conditional ∨
            exprTypeOf dag p.2 = ExprType.conditional
        · rw [if_pos h1]
        · rw [if_neg h1]
          by_cases h2 : exprTypeOf dag p.1 = ExprType.forLoop ∨
              exprTypeOf dag p.2 = ExprType.forLoop
          · rw [if_pos h2]
          · rw [if_neg h2, ht]
            simp [hg]
  · intro eu dag budget alloc decay threshold fuel hb hd h
    unfold naiveHillClimbingNoChildrenNoParents
    refine climbLoop_nonneg baseCandidate eu decay threshold fuel _ ?_ ?_ hd h
    · intro a s p c hc
      exact baseCandidate_shape a s p c hc
    · show 0 ≤ findUniformAllocation budget dag
      unfold findUniformAllocation
      exact div_nonneg hb (Nat.cast_nonneg _)
  · intro eu tau decay threshold fuel sp hb hd hu h
    unfold naiveHillClimbingInner
    by_cases htx : 0 < taxedBudget sp tau
    · rw [if_pos htx]
      refine climbLoop_nonneg (innerCandidate sp.dag) eu decay threshold fuel _ ?_ ?_ hd hu
      · intro a s p c hc
        exact innerCandidate_shape sp.dag a s p c hc
      · show 0 ≤ findUniformAllocation sp.budget sp.dag
        unfold findUniformAllocation
        exact div_nonneg hb (Nat.cast_nonneg _)
    · rw [if_neg htx]
      exact allocNonneg_zeroNonConditional sp.dag sp.alloc h
  · intro dag euOuter euSub tau innerFuel decay threshold fuel st hs hd h
    exact outerCondLoop_nonneg dag euOuter euSub tau innerFuel decay threshold fuel st hs
      hd h

/-- Witness for `c9_nonnegativity_by_silent_skip`: the base-variant conjunct
applied to a concrete run, and the skip conjunct at a concrete
under-budgeted pair. -/
theorem c9_nonnegativity_by_silent_skip_witness :
    (getTime [some 1, some 3] 0 = some 1 ∧ (1 : ℚ) - 2 < 0 ∧
      baseCandidate [some 1, some 3] 2 (0, 1) = none) ∧
    ((0 : ℚ) ≤ 4 ∧ (0 : ℚ) < 11 / 10 ∧ allocNonneg [some 2, some 2] ∧
      allocNonneg (naiveHillClimbingNoChildrenNoParents euTie dagTwo 4 [some 2, some 2]
        (11 / 10) (1 / 100) 3)) := by
  have hnn : allocNonneg [some 2, some 2] := (allocNonneg_iff _).mpr (by decide)
  refine ⟨⟨by decide, by decide, ?_⟩, by decide, by decide, hnn, ?_⟩
  · exact (c9_nonnegativity_by_silent_skip.1 [some 1, some 3] 2 (0, 1) 1 (by decide)
      (by decide)).1
  · exact c9_nonnegativity_by_silent_skip.2.1 euTie dagTwo 4 [some 2, some 2] (11 / 10)
      (1 / 100) 3 (by decide) (by decide) hnn

/-- Claim C1 counterexample: running `naive_hill_climbing_outer_conditional`
on `dagC1` from the branch-symmetric vector `[2, None, 2, 2]` commits the
candidate that moves the step out of branch child 2 into the root while
leaving the sibling branch child 3 untouched: the returned allocation
`[4, None, 0, 2]` violates branch symmetry, so branch symmetry is not an
invariant of committed allocations, and no sibling is moved in lock-step
within the candidate. -/
theorem c1_branch_symmetry_counterexample :
    branchSymmetric dagC1 [some 2, none, some 2, some 2] ∧
    c1Run.1 = [some 4, none, some 0, some 2] ∧
    ¬ branchSymmetric dagC1 c1Run.1 ∧
    getTime c1Run.1 3 = getTime [some 2, none, some 2, some 2] 3 ∧
    getTime c1Run.1 2 ≠ getTime [some 2, none, some 2, some 2] 2 := by
  refine ⟨by decide, by decide, by decide, by decide, by decide⟩

theorem getTime_transferTime_ne (a : Alloc) (i j : ℕ) (s : ℚ) (k : ℕ)
    (h1 : k ≠ i) (h2 : k ≠ j) : getTime (transferTime a i j s) k = getTime a k := by
  rw [transferTime, getTime_modifyTime, if_neg h2, getTime_modifyTime, if_neg h1]

theorem naiveHillClimbingInner_budget (eu : Alloc → ℚ) (tau decay threshold : ℚ)
    (fuel : ℕ) (sp : SubProgState) :
    (naiveHillClimbingInner eu tau decay threshold fuel sp).budget = sp.budget := by
  unfold naiveHillClimbingInner
  by_cases h : 0 < taxedBudget sp tau
  · rw [if_pos h]
  · rw [if_neg h]

theorem mem_updateSub (l : List (ℕ × CondPair)) (i : ℕ) (c : CondPair)
    (q : ℕ × CondPair) (h : q ∈ updateSub l i c) : q = (i, c) ∨ q ∈ l := by
  induction l with
  | nil => simp [updateSub] at h
  | cons p ps ih =>
    by_cases hp : p.1 = i
    · rw [updateSub, if_pos hp] at h
      rcases List.mem_cons.mp h with h1 | h1
      · exact Or.inl h1
      · exact Or.inr (List.mem_cons.mpr (Or.inr h1))
    · rw [updateSub, if_neg hp] at h
      rcases List.mem_cons.mp h with h1 | h1
      · exact Or.inr (List.mem_cons.mpr (Or.inl h1))
      · rcases ih h1 with h2 | h2
        · exact Or.inl h2
        · exact Or.inr (List.mem_cons.mpr (Or.inr h2))

theorem condStep_equalBudgets (dag : List PNode) (euSub : ℕ → Bool → Alloc → ℚ)
    (tau : ℚ) (innerFuel : ℕ) (subs : List (ℕ × CondPair)) (tVar fVar : Alloc)
    (i : ℕ) (newTime : ℚ) (h : equalBudgets subs) :
    equalBudgets (condStep dag euSub tau innerFuel subs tVar fVar i newTime).1 := by
  unfold condStep
  by_cases hc : exprTypeOf dag i = ExprType.conditional
  · rw [if_pos hc]
    rcases hlu : lookupSub subs i with _ | pr
    · exact h
    · simp only []
      intro q hq
      rcases mem_updateSub _ _ _ _ hq with h1 | h1
      · rw [h1]
        show (naiveHillClimbingInner (euSub i true) tau (11 / 10) (1 / 100) innerFuel
            { pr.trueSub with budget := newTime }).budget =
          (naiveHillClimbingInner (euSub i false) tau (11 / 10) (1 / 100) innerFuel
            { pr.falseSub with budget := newTime }).budget
        rw [naiveHillClimbingInner_budget, naiveHillClimbingInner_budget]
      · exact h q h1
  · rw [if_neg hc]
    exact h

theorem outerPairStep_equalBudgets (dag : List PNode)
    (euOuter : Alloc → List (ℕ × CondPair) → ℚ) (euSub : ℕ → Bool → Alloc → ℚ)
    (tau : ℚ) (innerFuel : ℕ) (cur : Alloc) (origT origF : Alloc) (s : ℚ)
    (sc : OuterScan) (p : ℕ × ℕ) (h : equalBudgets sc.subs) :
    equalBudgets (outerPairStep dag euOuter euSub tau innerFuel cur origT origF s sc
      p).subs := by
  unfold outerPairStep
  by_cases hp : p.1 = p.2
  · rw [if_pos hp]; exact h
  · rw [if_neg hp]
    rcases ht : getTime cur p.1 with _ | t0
    · exact h
    · simp only []
      by_cases hg : t0 - s < 0
      · rw [if_pos hg]; exact h
      · rw [if_neg hg]
        simp only []
        exact condStep_equalBudgets dag euSub tau innerFuel _ _ _ p.2 _
          (condStep_equalBudgets dag euSub tau innerFuel sc.subs sc.trueVar sc.falseVar
            p.1 _ h)

theorem outerScanFold_equalBudgets (dag : List PNode)
    (euOuter : Alloc → List (ℕ × CondPair) → ℚ) (euSub : ℕ → Bool → Alloc → ℚ)
    (tau : ℚ) (innerFuel : ℕ) (cur : Alloc) (origT origF : Alloc) (s : ℚ) :
    ∀ (ps : List (ℕ × ℕ)) (sc : OuterScan), equalBudgets sc.subs →
      equalBudgets ((ps.foldl (outerPairStep dag euOuter euSub tau innerFuel cur origT
        origF s) sc)).subs := by
  intro ps
  induction ps with
  | nil => intro sc h; exact h
  | cons p pt ih =>
    intro sc h
    rw [List.foldl_cons]
    exact ih _ (outerPairStep_equalBudgets dag euOuter euSub tau innerFuel cur origT origF
      s sc p h)

theorem outerCondRound_equalBudgets (dag : List PNode)
    (euOuter : Alloc → List (ℕ × CondPair) → ℚ) (euSub : ℕ → Bool → Alloc → ℚ)
    (tau : ℚ) (innerFuel : ℕ) (decay : ℚ) (st : OuterCondState)
    (h : equalBudgets st.subs) :
    equalBudgets (outerCondRound dag euOuter euSub tau innerFuel decay st).subs := by
  unfold outerCondRound
  simp only []
  have hsc := outerScanFold_equalBudgets dag euOuter euSub tau innerFuel st.alloc
    st.origTrue st.origFalse st.step (orderedPairs (nonNullIds st.alloc))
    { subs := st.subs, trueVar := st.trueVar, falseVar := st.falseVar, plm := [] } h
  split
  · exact hsc
  · exact hsc

/-- Claim C1 as amended: every candidate of the pair scan differs from the
current allocation at exactly its two endpoint entries — no variant adjusts
a sibling branch child inside the same candidate, so branch symmetry is not
an enforced invariant of searched or committed vectors; what the
outer-conditional variant does guarantee is that whenever a pair endpoint is
the conditional node itself, both branch subprograms are re-budgeted to the
same new time, so equality of the two branch budgets is preserved by every
round. -/
theorem c1_amended_no_sibling_lockstep :
    (∀ (eu : Alloc → ℚ) (a : Alloc) (s : ℚ) (c : Alloc),
      c ∈ genCands baseCandidate eu a s →
      ∃ i j, i ≠ j ∧ c = transferTime a i j s ∧
        ∀ k, k ≠ i → k ≠ j → getTime c k = getTime a k) ∧
    (∀ (dag : List PNode) (eu : Alloc → ℚ) (a : Alloc) (s : ℚ) (c : Alloc),
      c ∈ genCands (innerCandidate dag) eu a s →
      ∃ i j, i ≠ j ∧ c = transferTime a i j s ∧
        ∀ k, k ≠ i → k ≠ j → getTime c k = getTime a k) ∧
    (∀ (dag : List PNode) (euOuter : Alloc → List (ℕ × CondPair) → ℚ)
      (euSub : ℕ → Bool → Alloc → ℚ) (tau : ℚ) (innerFuel : ℕ) (decay : ℚ)
      (st : OuterCondState), equalBudgets st.subs →
      equalBudgets (outerCondRound dag euOuter euSub tau innerFuel decay st).subs) := by
  refine ⟨?_, ?_, ?_⟩
  · intro eu a s c hc
    rcases genCands_shape baseCandidate eu a s c
      (fun p c h => baseCandidate_shape a s p c h) hc with ⟨i, j, t0, hij, _, _, hceq⟩
    exact ⟨i, j, hij, hceq, fun k h1 h2 => by rw [hceq]; exact getTime_transferTime_ne a i j s k h1 h2⟩
  · intro dag eu a s c hc
    rcases genCands_shape (innerCandidate dag) eu a s c
      (fun p c h => innerCandidate_shape dag a s p c h) hc with ⟨i, j, t0, hij, _, _, hceq⟩
    exact ⟨i, j, hij, hceq, fun k h1 h2 => by rw [hceq]; exact getTime_transferTime_ne a i j s k h1 h2⟩
  · intro dag euOuter euSub tau innerFuel decay st h
    exact outerCondRound_equalBudgets dag euOuter euSub tau innerFuel decay st h

/-- Witness for `c1_amended_no_sibling_lockstep`: the base-candidate frame
property at a concrete recorded candidate, and budget-equality preservation
on a concrete round. -/
theorem c1_amended_no_sibling_lockstep_witness :
    ([some 1, some 3] ∈ genCands baseCandidate euTie [some 2, some 2] 1 ∧
      ∃ i j, i ≠ j ∧ ([some 1, some 3] : Alloc) = transferTime [some 2, some 2] i j 1 ∧
        ∀ k, k ≠ i → k ≠ j →
          getTime [some 1, some 3] k = getTime [some 2, some 2] k) ∧
    (equalBudgets [] ∧
      equalBudgets (outerCondRound dagC1 euOuterC1 euSubZero 0 0 (11 / 10)
        { alloc := [some 2, none, some 2, some 2], step := 2, subs := [], origTrue := [],
          origFalse := [], trueVar := [], falseVar := [] }).subs) := by
  constructor
  · refine ⟨by decide, ?_⟩
    exact c1_amended_no_sibling_lockstep.1 euTie [some 2, some 2] 1 [some 1, some 3]
      (by decide)
  · refine ⟨by intro q hq; simp at hq, ?_⟩
    exact c1_amended_no_sibling_lockstep.2.2 dagC1 euOuterC1 euSubZero 0 0 (11 / 10)
      { alloc := [some 2, none, some 2, some 2], step := 2, subs := [], origTrue := [],
        origFalse := [], trueVar := [], falseVar := [] }
      (by intro q hq; simp at hq)

theorem modifyTime_length (a : Alloc) : ∀ (i : ℕ) (f : ℚ → ℚ),
    (modifyTime a i f).length = a.length := by
  induction a with
  | nil => intro i f; rfl
  | cons t ts ih =>
    intro i f
    cases i with
    | zero => simp [modifyTime]
    | succ i => simp [modifyTime, ih]

theorem transferTime_length (a : Alloc) (i j : ℕ) (s : ℚ) :
    (transferTime a i j s).length = a.length := by
  rw [transferTime, modifyTime_length, modifyTime_length]

theorem getTime_some_lt_length (a : Alloc) (k : ℕ) (x : ℚ)
    (h : getTime a k = some x) : k < a.length := by
  by_contra hk
  push_neg at hk
  rw [getTime, List.getD_eq_getElem?_getD, List.getElem?_eq_none hk] at h
  simp at h

theorem allocExt (a b : Alloc) (hl : a.length = b.length)
    (h : ∀ k, getTime a k = getTime b k) : a = b := by
  induction a generalizing b with
  | nil =>
    cases b with
    | nil => rfl
    | cons u us => simp at hl
  | cons t ts ih =>
    cases b with
    | nil => simp at hl
    | cons u us =>
      have h0 := h 0
      simp only [getTime, List.getD_cons_zero] at h0
      have hrest : ∀ k, getTime ts k = getTime us k := by
        intro k
        have := h (k + 1)
        simpa [getTime] using this
      simp at hl
      rw [h0, ih us hl hrest]

theorem getTime_recon (a₀ : Alloc) : ∀ (m : List ℤ) (s : ℚ) (k : ℕ),
    m.length = a₀.length →
    getTime (recon a₀ s m) k = (getTime a₀ k).map (fun x => x + (m.getD k 0) * s) := by
  induction a₀ with
  | nil =>
    intro m s k hm
    rw [List.length_nil, List.length_eq_zero] at hm
    subst hm
    simp [recon, getTime]
  | cons t ts ih =>
    intro m s k hm
    cases m with
    | nil => simp at hm
    | cons z zs =>
      simp at hm
      cases k with
      | zero => simp [recon, getTime]
      | succ k =>
        have := ih zs s k hm
        simpa [recon, getTime] using this

theorem recon_length (a₀ : Alloc) (s : ℚ) (m : List ℤ) (hm : m.length = a₀.length) :
    (recon a₀ s m).length = a₀.length := by
  rw [recon, List.length_zipWith, hm, min_self]

theorem countSome_recon (a₀ : Alloc) : ∀ (m : List ℤ) (s : ℚ),
    m.length = a₀.length → countSome (recon a₀ s m) = countSome a₀ := by
  induction a₀ with
  | nil =>
    intro m s hm
    rw [List.length_nil, List.length_eq_zero] at hm
    subst hm
    rfl
  | cons t ts ih =>
    intro m s hm
    cases m with
    | nil => simp at hm
    | cons z zs =>
      simp at hm
      cases t with
      | none => simpa [recon, countSome, List.filter] using ih zs s hm
      | some x => simpa [recon, countSome, List.filter] using ih zs s hm

theorem recon_replicate_zero (a₀ : Alloc) (s : ℚ) :
    recon a₀ s (List.replicate a₀.length 0) = a₀ := by
  induction a₀ with
  | nil => rfl
  | cons t ts ih =>
    cases t with
    | none => simpa [recon, List.replicate] using ih
    | some x => simpa [recon, List.replicate] using ih

theorem minEntry_nonpos (a : Alloc) : minEntry a ≤ 0 := by
  induction a with
  | nil => simp [minEntry]
  | cons t ts ih =>
    cases t with
    | none => simpa [minEntry] using ih
    | some x => exact le_trans (min_le_right _ _) ih

theorem minEntry_le (a : Alloc) : ∀ (k : ℕ) (x : ℚ), getTime a k = some x →
    minEntry a ≤ x := by
  induction a with
  | nil => intro k x h; simp [getTime] at h
  | cons t ts ih =>
    intro k x h
    cases k with
    | zero =>
      simp only [getTime, List.getD_cons_zero] at h
      subst h
      simp [minEntry]
    | succ k =>
      have hts : getTime ts k = some x := by simpa [getTime] using h
      cases t with
      | none => simpa [minEntry] using ih k x hts
      | some y => exact le_trans (min_le_right _ _) (ih k x hts)

theorem intShift_length : ∀ (m : List ℤ) (i : ℕ) (d : ℤ),
    (intShift m i d).length = m.length := by
  intro m
  induction m with
  | nil => intro i d; rfl
  | cons z zs ih =>
    intro i d
    cases i with
    | zero => simp [intShift]
    | succ i => simp [intShift, ih]

theorem getD_intShift : ∀ (m : List ℤ) (i : ℕ) (d : ℤ) (k : ℕ),
    (intShift m i d).getD k 0 =
      m.getD k 0 + (if k = i ∧ k < m.length then d else 0) := by
  intro m
  induction m with
  | nil => intro i d k; simp [intShift]
  | cons z zs ih =>
    intro i d k
    cases i with
    | zero =>
      cases k with
      | zero => simp [intShift]
      | succ k => simp [intShift]
    | succ i =>
      cases k with
      | zero => simp [intShift]
      | succ k =>
        have := ih i d k
        simp only [intShift, List.getD_cons_succ, List.length_cons]
        rw [this]
        by_cases hk : k = i ∧ k < zs.length
        · rw [if_pos hk, if_pos ⟨by omega, by omega⟩]
        · rw [if_neg hk, if_neg (by omega)]

theorem countSome_pos_of_entry (a : Alloc) : ∀ (k : ℕ) (x : ℚ),
    getTime a k = some x → 1 ≤ countSome a := by
  induction a with
  | nil => intro k x h; simp [getTime] at h
  | cons t ts ih =>
    intro k x h
    cases k with
    | zero =>
      simp only [getTime, List.getD_cons_zero] at h
      subst h
      simp [countSome, List.filter]
    | succ k =>
      have hts : getTime ts k = some x := by simpa [getTime] using h
      cases t with
      | none => simpa [countSome, List.filter] using ih k x hts
      | some y => simp [countSome, List.filter]

theorem countSome_mul_le_sumAlloc (L : ℚ) (hL : L ≤ 0) :
    ∀ (a : Alloc), (∀ k x, getTime a k = some x → L ≤ x) →
      (countSome a : ℚ) * L ≤ sumAlloc a := by
  intro a
  induction a with
  | nil => intro h; simp [countSome, sumAlloc]
  | cons t ts ih =>
    intro h
    have hts : ∀ k x, getTime ts k = some x → L ≤ x := by
      intro k x hk
      exact h (k + 1) x (by simpa [getTime] using hk)
    cases t with
    | none =>
      have := ih hts
      simpa [countSome, List.filter, sumAlloc] using this
    | some y =>
      have hy : L ≤ y := h 0 y (by simp [getTime])
      have := ih hts
      have hgoal : ((countSome ts : ℚ) + 1) * L ≤ y + sumAlloc ts := by
        rw [add_mul, one_mul]
        have : (countSome ts : ℚ) * L + L ≤ sumAlloc ts + y := add_le_add this hy
        linarith
      simpa [countSome, List.filter, sumAlloc, add_comm, Nat.cast_add] using hgoal

theorem entry_le_sum_bound (L : ℚ) (hL : L ≤ 0) :
    ∀ (a : Alloc) (k : ℕ) (x : ℚ), (∀ k' x', getTime a k' = some x' → L ≤ x') →
      getTime a k = some x →
      x + ((countSome a - 1 : ℕ) : ℚ) * L ≤ sumAlloc a := by
  intro a
  induction a with
  | nil => intro k x _ h; simp [getTime] at h
  | cons t ts ih =>
    intro k x hge h
    have hts : ∀ k' x', getTime ts k' = some x' → L ≤ x' := by
      intro k' x' hk
      exact hge (k' + 1) x' (by simpa [getTime] using hk)
    cases k with
    | zero =>
      simp only [getTime, List.getD_cons_zero] at h
      subst h
      have hsum := countSome_mul_le_sumAlloc L hL ts hts
      have hcnt : countSome (some x :: ts) = countSome ts + 1 := by
        simp [countSome, List.filter]
      rw [hcnt]
      have : (countSome ts + 1 - 1 : ℕ) = countSome ts := by omega
      rw [this]
      show x + (countSome ts : ℚ) * L ≤ sumAlloc (some x :: ts)
      have hsa : sumAlloc (some x :: ts) = x + sumAlloc ts := by simp [sumAlloc]
      rw [hsa]
      linarith
    | succ k =>
      have hx : getTime ts k = some x := by simpa [getTime] using h
      have hIH := ih k x hts hx
      cases t with
      | none =>
        have hcnt : countSome ((none : TimeQ) :: ts) = countSome ts := by
          simp [countSome, List.filter]
        have hsa : sumAlloc ((none : TimeQ) :: ts) = sumAlloc ts := by simp [sumAlloc]
        rw [hcnt, hsa]
        exact hIH
      | some y =>
        have hy : L ≤ y := hge 0 y (by simp [getTime])
        have hcnt : countSome (some y :: ts) = countSome ts + 1 := by
          simp [countSome, List.filter]
        have hsa : sumAlloc (some y :: ts) = y + sumAlloc ts := by simp [sumAlloc]
        rw [hcnt, hsa]
        have hpos : 1 ≤ countSome ts := countSome_pos_of_entry ts k x hx
        have hcast : ((countSome ts + 1 - 1 : ℕ) : ℚ) = ((countSome ts - 1 : ℕ) : ℚ) + 1 := by
          have h1 : (countSome ts + 1 - 1 : ℕ) = countSome ts := by omega
          have h2 : countSome ts = (countSome ts - 1) + 1 := by omega
          rw [h1, h2]
          norm_cast
        rw [hcast]
        have : x + (((countSome ts - 1 : ℕ) : ℚ) + 1) * L =
            (x + ((countSome ts - 1 : ℕ) : ℚ) * L) + L := by ring
        rw [this]
        linarith

theorem modifyTime_of_none (a : Alloc) : ∀ (i : ℕ) (f : ℚ → ℚ),
    getTime a i = none → modifyTime a i f = a := by
  induction a with
  | nil => intro i f _; rfl
  | cons t ts ih =>
    intro i f h
    cases i with
    | zero =>
      simp only [getTime, List.getD_cons_zero] at h
      subst h
      rfl
    | succ i =>
      have : getTime ts i = none := by simpa [getTime] using h
      simp [modifyTime, ih i f this]

theorem sumAlloc_modifyTime (a : Alloc) : ∀ (i : ℕ) (f : ℚ → ℚ) (t : ℚ),
    getTime a i = some t → sumAlloc (modifyTime a i f) = sumAlloc a - t + f t := by
  induction a with
  | nil => intro i f t h; simp [getTime] at h
  | cons u us ih =>
    intro i f t h
    cases i with
    | zero =>
      simp only [getTime, List.getD_cons_zero] at h
      subst h
      simp [modifyTime, sumAlloc]
      ring
    | succ i =>
      have hts : getTime us i = some t := by simpa [getTime] using h
      have := ih i f t hts
      simp only [modifyTime, sumAlloc, List.foldr_cons] at this ⊢
      rw [this]
      ring

theorem sumAlloc_transferTime (a : Alloc) (i j : ℕ) (s t0 : ℚ) (hij : i ≠ j)
    (hi : getTime a i = some t0) (hs : 0 ≤ s) :
    sumAlloc (transferTime a i j s) ≤ sumAlloc a := by
  rw [transferTime]
  have hsum1 : sumAlloc (modifyTime a i (fun t => t - s)) = sumAlloc a - s := by
    rw [sumAlloc_modifyTime a i _ t0 hi]
    ring
  rcases hj : getTime a j with _ | t1
  · have hj1 : getTime (modifyTime a i (fun t => t - s)) j = none := by
      rw [getTime_modifyTime, if_neg (Ne.symm hij), hj]
    rw [modifyTime_of_none _ j _ hj1, hsum1]
    linarith
  · have hj1 : getTime (modifyTime a i (fun t => t - s)) j = some t1 := by
      rw [getTime_modifyTime, if_neg (Ne.symm hij), hj]
    rw [sumAlloc_modifyTime _ j _ t1 hj1, hsum1]
    ring_nf
    linarith

theorem entriesGE_transferTime (a : Alloc) (i j : ℕ) (s t0 L : ℚ) (hL : L ≤ 0)
    (hs : 0 ≤ s) (hi : getTime a i = some t0) (hg : ¬ t0 - s < 0)
    (h : ∀ k x, getTime a k = some x → L ≤ x) :
    ∀ k x, getTime (transferTime a i j s) k = some x → L ≤ x := by
  intro k x hk
  rw [transferTime, getTime_modifyTime] at hk
  by_cases hkj : k = j
  · rw [if_pos hkj, getTime_modifyTime] at hk
    by_cases hji : j = i
    · rw [if_pos hji, hi] at hk
      simp at hk
      have := not_lt.mp hg
      linarith [hk]
    · rw [if_neg hji] at hk
      rcases hy : getTime a j with _ | y
      · rw [hy] at hk; simp at hk
      · rw [hy] at hk
        simp at hk
        have := h j y hy
        linarith [hk]
  · rw [if_neg hkj, getTime_modifyTime] at hk
    by_cases hki : k = i
    · rw [if_pos hki, hi] at hk
      simp at hk
      have := not_lt.mp hg
      linarith [hk]
    · rw [if_neg hki] at hk
      exact h k x hk

theorem boxBounds_length (s L H : ℚ) : ∀ (a : Alloc),
    (boxBounds s L H a).length = a.length := by
  intro a
  induction a with
  | nil => rfl
  | cons t ts ih =>
    cases t with
    | none => simp [boxBounds, ih]
    | some x => simp [boxBounds, ih]

theorem boxBounds_getD (s L H : ℚ) : ∀ (a : Alloc) (k : ℕ),
    (boxBounds s L H a).getD k (0, 0) =
      (match getTime a k with
        | none => ((0 : ℤ), (0 : ℤ))
        | some x => (⌈(L - x) / s⌉, ⌊(H - x) / s⌋)) := by
  intro a
  induction a with
  | nil => intro k; simp [boxBounds, getTime]
  | cons t ts ih =>
    intro k
    cases t with
    | none =>
      cases k with
      | zero => simp [boxBounds, getTime]
      | succ k => simpa [boxBounds, getTime] using ih k
    | some x =>
      cases k with
      | zero => simp [boxBounds, getTime]
      | succ k => simpa [boxBounds, getTime] using ih k

theorem mem_intBoxList : ∀ (bnds : List (ℤ × ℤ)) (m : List ℤ),
    m ∈ intBoxList bnds ↔ m.length = bnds.length ∧
      ∀ k, (bnds.getD k (0, 0)).1 ≤ m.getD k 0 ∧ m.getD k 0 ≤ (bnds.getD k (0, 0)).2 := by
  intro bnds
  induction bnds with
  | nil =>
    intro m
    simp only [intBoxList, Finset.mem_singleton, List.length_nil]
    constructor
    · intro h
      subst h
      exact ⟨rfl, fun k => by simp⟩
    · intro ⟨h, _⟩
      exact List.length_eq_zero.mp h
  | cons b bs ih =>
    intro m
    simp only [intBoxList, Finset.mem_image, Finset.mem_product]
    constructor
    · rintro ⟨⟨z, ms⟩, ⟨hz, hms⟩, rfl⟩
      have hzi := Finset.mem_Icc.mp hz
      have := (ih ms).mp hms
      refine ⟨by simp [this.1], fun k => ?_⟩
      cases k with
      | zero => simpa using hzi
      | succ k => simpa using this.2 k
    · rintro ⟨hlen, hbnd⟩
      cases m with
      | nil => simp at hlen
      | cons z ms =>
        refine ⟨(z, ms), ⟨Finset.mem_Icc.mpr (by simpa using hbnd 0), ?_⟩, rfl⟩
        refine (ih ms).mpr ⟨by simpa using hlen, fun k => by simpa using hbnd (k + 1)⟩

theorem canonical_mem_box (a₀ : Alloc) (s L H : ℚ) (hs : 0 < s) (m : List ℤ)
    (hm : m.length = a₀.length) (hz : ∀ k, getTime a₀ k = none → m.getD k 0 = 0)
    (hbnd : ∀ k x, getTime (recon a₀ s m) k = some x → L ≤ x ∧ x ≤ H) :
    m ∈ intBoxList (boxBounds s L H a₀) := by
  rw [mem_intBoxList]
  refine ⟨by rw [hm, boxBounds_length], fun k => ?_⟩
  rw [boxBounds_getD]
  rcases hk : getTime a₀ k with _ | x₀
  · simp only []
    rw [hz k hk]
    exact ⟨le_refl 0, le_refl 0⟩
  · simp only []
    have hrk : getTime (recon a₀ s m) k = some (x₀ + (m.getD k 0) * s) := by
      rw [getTime_recon a₀ m s k hm, hk]
      rfl
    have hb := hbnd k _ hrk
    constructor
    · rw [Int.ceil_le]
      rw [div_le_iff₀ hs]
      linarith [hb.1]
    · rw [Int.le_floor]
      rw [le_div_iff₀ hs]
      linarith [hb.2]

theorem transfer_recon (a₀ : Alloc) (s : ℚ) (m : List ℤ) (i j : ℕ) (x₀ : ℚ)
    (hij : i ≠ j) (hm : m.length = a₀.length) (hi : getTime a₀ i = some x₀) :
    ∃ m', m'.length = a₀.length ∧
      transferTime (recon a₀ s m) i j s = recon a₀ s m' ∧
      ∀ k, getTime a₀ k = none → m'.getD k 0 = m.getD k 0 := by
  have hilen : i < m.length := by
    rw [hm]; exact getTime_some_lt_length a₀ i x₀ hi
  rcases hj : getTime a₀ j with _ | xj
  · refine ⟨intShift m i (-1), by rw [intShift_length, hm], ?_, ?_⟩
    · have hm' : (intShift m i (-1)).length = a₀.length := by rw [intShift_length, hm]
      apply allocExt
      · rw [transferTime_length, recon_length a₀ s m hm, recon_length a₀ s _ hm']
      · intro k
        by_cases hkj : k = j
        · subst hkj
          rw [transferTime, getTime_modifyTime, if_pos rfl, getTime_modifyTime,
            if_neg (Ne.symm hij), getTime_recon a₀ m s k hm,
            getTime_recon a₀ _ s k hm', hj]
          rfl
        · rw [transferTime, getTime_modifyTime, if_neg hkj, getTime_modifyTime]
          by_cases hki : k = i
          · subst hki
            rw [if_pos rfl, getTime_recon a₀ m s k hm,
              getTime_recon a₀ _ s k hm', hi, getD_intShift, if_pos ⟨rfl, hilen⟩]
            simp only [Option.map_some']
            congr 1
            push_cast
            ring
          · rw [if_neg hki, getTime_recon a₀ m s k hm, getTime_recon a₀ _ s k hm',
              getD_intShift, if_neg (fun hc => hki hc.1)]
            rw [add_zero]
    · intro k hk
      rw [getD_intShift]
      have hne : ¬(k = i ∧ k < m.length) := by
        rintro ⟨rfl, _⟩
        rw [hi] at hk
        exact Option.noConfusion hk
      rw [if_neg hne, add_zero]
  · have hjlen : j < m.length := by
      rw [hm]; exact getTime_some_lt_length a₀ j xj hj
    have hm1 : (intShift m i (-1)).length = m.length := intShift_length m i (-1)
    have hm' : (intShift (intShift m i (-1)) j 1).length = a₀.length := by
      rw [intShift_length, hm1, hm]
    refine ⟨intShift (intShift m i (-1)) j 1, hm', ?_, ?_⟩
    · apply allocExt
      · rw [transferTime_length, recon_length a₀ s m hm, recon_length a₀ s _ hm']
      · intro k
        by_cases hkj : k = j
        · subst hkj
          rw [transferTime, getTime_modifyTime, if_pos rfl, getTime_modifyTime,
            if_neg (Ne.symm hij), getTime_recon a₀ m s k hm,
            getTime_recon a₀ _ s k hm', hj, getD_intShift,
            if_pos ⟨rfl, by rw [hm1]; exact hjlen⟩, getD_intShift,
            if_neg (fun hc => (Ne.symm hij) hc.1)]
          simp only [Option.map_some']
          congr 1
          push_cast
          ring
        · rw [transferTime, getTime_modifyTime, if_neg hkj, getTime_modifyTime]
          by_cases hki : k = i
          · subst hki
            rw [if_pos rfl, getTime_recon a₀ m s k hm,
              getTime_recon a₀ _ s k hm', hi, getD_intShift,
              if_neg (fun hc => hkj hc.1), getD_intShift, if_pos ⟨rfl, hilen⟩]
            simp only [Option.map_some']
            congr 1
            push_cast
            ring
          · rw [if_neg hki, getTime_recon a₀ m s k hm, getTime_recon a₀ _ s k hm',
              getD_intShift, if_neg (fun hc => hkj hc.1), getD_intShift,
              if_neg (fun hc => hki hc.1)]
            rw [add_zero, add_zero]
    · intro k hk
      have hki : k ≠ i := by
        rintro rfl
        rw [hi] at hk
        exact Option.noConfusion hk
      have hkj : k ≠ j := by
        rintro rfl
        rw [hj] at hk
        exact Option.noConfusion hk
      rw [getD_intShift, if_neg (fun hc => hkj hc.1), getD_intShift,
        if_neg (fun hc => hki hc.1), add_zero, add_zero]

theorem replicate_getD_zero : ∀ (n k : ℕ), (List.replicate n (0 : ℤ)).getD k 0 = 0 := by
  intro n
  induction n with
  | zero => intro k; simp
  | succ n ih =>
    intro k
    cases k with
    | zero => simp [List.replicate]
    | succ k =>
      rw [List.replicate, List.getD_cons_succ]
      exact ih k

theorem streakInv_commit (a₀ : Alloc) (s L S H : ℚ) (hs : 0 < s) (hL : L ≤ 0)
    (hH : H = S - ((countSome a₀ - 1 : ℕ) : ℚ) * L) (eu : Alloc → ℚ) (cur c : Alloc)
    (hInv : StreakInv a₀ s L S cur) (hshape : isGuardedTransfer cur s c)
    (himp : eu cur < eu c) :
    StreakInv a₀ s L S c ∧
      climbMeasure eu a₀ s L H c < climbMeasure eu a₀ s L H cur := by
  obtain ⟨hge, hsum, m, hm, hcur, hz⟩ := hInv
  obtain ⟨i, j, t0, hij, hi, hg, hceq⟩ := hshape
  have hi0 : ∃ x₀, getTime a₀ i = some x₀ := by
    rw [hcur, getTime_recon a₀ m s i hm] at hi
    rcases hx : getTime a₀ i with _ | x₀
    · rw [hx] at hi; simp at hi
    · exact ⟨x₀, rfl⟩
  obtain ⟨x₀, hx₀⟩ := hi0
  obtain ⟨m', hm', heqr, hz'⟩ := transfer_recon a₀ s m i j x₀ hij hm hx₀
  have hc_recon : c = recon a₀ s m' := by
    rw [hceq, hcur, heqr]
  have hge' : ∀ k x, getTime c k = some x → L ≤ x := by
    rw [hceq]
    exact entriesGE_transferTime cur i j s t0 L hL (le_of_lt hs) hi hg hge
  have hsum' : sumAlloc c ≤ S := by
    rw [hceq]
    exact le_trans (sumAlloc_transferTime cur i j s t0 hij hi (le_of_lt hs)) hsum
  have hz'' : ∀ k, getTime a₀ k = none → m'.getD k 0 = 0 := by
    intro k hk
    rw [hz' k hk]
    exact hz k hk
  have hInv' : StreakInv a₀ s L S c := ⟨hge', hsum', m', hm', hc_recon, hz''⟩
  refine ⟨hInv', ?_⟩
  have hcnt : countSome c = countSome a₀ := by
    rw [hc_recon]
    exact countSome_recon a₀ m' s hm'
  have hbound : ∀ k x, getTime (recon a₀ s m') k = some x → L ≤ x ∧ x ≤ H := by
    intro k x hk
    rw [← hc_recon] at hk
    refine ⟨hge' k x hk, ?_⟩
    have := entry_le_sum_bound L hL c k x hge' hk
    rw [hcnt] at this
    rw [hH]
    linarith
  have hm'box : m' ∈ intBoxList (boxBounds s L H a₀) :=
    canonical_mem_box a₀ s L H hs m' hm' hz'' hbound
  unfold climbMeasure
  apply Finset.card_lt_card
  rw [Finset.ssubset_iff_of_subset]
  · refine ⟨m', Finset.mem_filter.mpr ⟨hm'box, ?_⟩, ?_⟩
    · rw [← hc_recon]
      exact himp
    · intro hmem
      have := (Finset.mem_filter.mp hmem).2
      rw [← hc_recon] at this
      exact absurd this (lt_irrefl _)
  · intro mm hmm
    have h1 := Finset.mem_filter.mp hmm
    exact Finset.mem_filter.mpr ⟨h1.1, lt_trans himp h1.2⟩

theorem streak_reaches_decay (cand : Alloc → ℚ → ℕ × ℕ → Option Alloc)
    (eu : Alloc → ℚ) (decay : ℚ) (a₀ : Alloc) (s L S H : ℚ) (hs : 0 < s) (hL : L ≤ 0)
    (hH : H = S - ((countSome a₀ - 1 : ℕ) : ℚ) * L)
    (Hc : ∀ a s p c, cand a s p = some c → isGuardedTransfer a s c) :
    ∀ (N : ℕ) (cur : Alloc), StreakInv a₀ s L S cur →
      climbMeasure eu a₀ s L H cur ≤ N →
      ∃ n a', ((climbRound cand eu decay)^[n]) ⟨cur, s⟩ = ⟨a', s / decay⟩ := by
  intro N
  induction N with
  | zero =>
    intro cur hInv hN
    by_cases hc : (genCands cand eu cur s).isEmpty
    · refine ⟨1, cur, ?_⟩
      rw [Function.iterate_one]
      unfold climbRound
      simp only [hc, if_true]
    · exfalso
      have hne : genCands cand eu cur s ≠ [] := by
        intro h0; rw [h0] at hc; simp at hc
      have hmem := (commitLast_mem_of_ne_nil eu _ cur hne).1
      have himp := genCands_improves cand eu cur s _ hmem
      have hshape := genCands_shape cand eu cur s _ (Hc cur s) hmem
      have := (streakInv_commit a₀ s L S H hs hL hH eu cur _ hInv hshape himp).2
      omega
  | succ N ih =>
    intro cur hInv hN
    by_cases hc : (genCands cand eu cur s).isEmpty
    · refine ⟨1, cur, ?_⟩
      rw [Function.iterate_one]
      unfold climbRound
      simp only [hc, if_true]
    · have hne : genCands cand eu cur s ≠ [] := by
        intro h0; rw [h0] at hc; simp at hc
      have hmem := (commitLast_mem_of_ne_nil eu _ cur hne).1
      have himp := genCands_improves cand eu cur s _ hmem
      have hshape := genCands_shape cand eu cur s _ (Hc cur s) hmem
      obtain ⟨hInv', hmeas⟩ :=
        streakInv_commit a₀ s L S H hs hL hH eu cur _ hInv hshape himp
      obtain ⟨n, a', hiter⟩ := ih _ hInv' (by omega)
      refine ⟨n + 1, a', ?_⟩
      rw [Function.iterate_succ_apply]
      have hround : climbRound cand eu decay ⟨cur, s⟩ =
          ⟨commitLast eu (genCands cand eu cur s) cur, s⟩ := by
        unfold climbRound
        simp only [hc, Bool.false_eq_true, if_false]
      rw [hround]
      exact hiter

theorem exists_decay_pow (decay threshold s₀ : ℚ) (hd : 1 < decay) (ht : 0 < threshold) :
    ∃ k, s₀ / decay ^ k ≤ threshold := by
  by_cases hs : s₀ ≤ threshold
  · exact ⟨0, by simpa using hs⟩
  · push_neg at hs
    obtain ⟨k, hk⟩ := pow_unbounded_of_one_lt (s₀ / threshold) hd
    refine ⟨k, ?_⟩
    have hdk : (0 : ℚ) < decay ^ k := pow_pos (lt_trans zero_lt_one hd) k
    rw [div_le_iff₀ hdk]
    rw [div_lt_iff₀ ht] at hk
    linarith [hk]

theorem climb_decay_count (cand : Alloc → ℚ → ℕ × ℕ → Option Alloc) (eu : Alloc → ℚ)
    (decay threshold : ℚ)
    (Hc : ∀ a s p c, cand a s p = some c → isGuardedTransfer a s c)
    (hd : 1 < decay) (ht : 0 < threshold) :
    ∀ (k : ℕ) (st : ClimbState), st.step / decay ^ k ≤ threshold →
      ∃ n jj, (((climbRound cand eu decay)^[n]) st).step ≤ threshold ∧
        (((climbRound cand eu decay)^[n]) st).step = st.step / decay ^ jj ∧
        ∀ i < jj, threshold < st.step / decay ^ i := by
  intro k
  induction k with
  | zero =>
    intro st h
    rw [pow_zero, div_one] at h
    exact ⟨0, 0, by simpa using h, by simp, by omega⟩
  | succ k ih =>
    intro st h
    by_cases hst : st.step ≤ threshold
    · exact ⟨0, 0, by simpa using hst, by simp, by omega⟩
    · push_neg at hst
      obtain ⟨a0, s0⟩ := st
      have hst0 : threshold < s0 := hst
      have hpos : 0 < s0 := lt_trans ht hst0
      have hInv0 : StreakInv a0 s0 (minEntry a0) (sumAlloc a0) a0 := by
        refine ⟨minEntry_le a0, le_refl _, List.replicate a0.length 0, by simp,
          (recon_replicate_zero a0 s0).symm, ?_⟩
        intro k' _
        exact replicate_getD_zero a0.length k'
      obtain ⟨n₁, a', hiter1⟩ := streak_reaches_decay cand eu decay a0 s0 (minEntry a0)
        (sumAlloc a0)
        (sumAlloc a0 - ((countSome a0 - 1 : ℕ) : ℚ) * minEntry a0) hpos
        (minEntry_nonpos a0) rfl Hc
        (climbMeasure eu a0 s0 (minEntry a0)
          (sumAlloc a0 - ((countSome a0 - 1 : ℕ) : ℚ) * minEntry a0) a0) a0 hInv0
        (le_refl _)
      have hstep' : (ClimbState.mk a' (s0 / decay)).step / decay ^ k ≤ threshold := by
        show s0 / decay / decay ^ k ≤ threshold
        rw [div_div, ← pow_succ']
        exact h
      obtain ⟨n₂, j₂, h1, h2, h3⟩ := ih ⟨a', s0 / decay⟩ hstep'
      refine ⟨n₂ + n₁, j₂ + 1, ?_, ?_, ?_⟩
      · rw [Function.iterate_add_apply, hiter1]
        exact h1
      · rw [Function.iterate_add_apply, hiter1, h2]
        show s0 / decay / decay ^ j₂ = s0 / decay ^ (j₂ + 1)
        rw [div_div, ← pow_succ']
      · intro i hi
        cases i with
        | zero =>
          simpa using hst0
        | succ i' =>
          have := h3 i' (by omega)
          show threshold < s0 / decay ^ (i' + 1)
          rw [pow_succ', ← div_div]
          exact this

theorem climbLoop_of_le (cand : Alloc → ℚ → ℕ × ℕ → Option Alloc) (eu : Alloc → ℚ)
    (decay threshold : ℚ) (st : ClimbState) (h : st.step ≤ threshold) :
    ∀ fuel, climbLoop cand eu decay threshold fuel st = st := by
  intro fuel
  cases fuel with
  | zero => rfl
  | succ n =>
    unfold climbLoop
    simp [h]

theorem climbLoop_stabilizes (cand : Alloc → ℚ → ℕ × ℕ → Option Alloc) (eu : Alloc → ℚ)
    (decay threshold : ℚ) :
    ∀ (n : ℕ) (st : ClimbState), (((climbRound cand eu decay)^[n]) st).step ≤ threshold →
      ∀ fuel, n ≤ fuel →
        climbLoop cand eu decay threshold fuel st = climbLoop cand eu decay threshold n st := by
  intro n
  induction n with
  | zero =>
    intro st h fuel _
    simp only [Function.iterate_zero_apply] at h
    rw [climbLoop_of_le cand eu decay threshold st h fuel]
    rfl
  | succ n ih =>
    intro st h fuel hfuel
    by_cases hst : st.step ≤ threshold
    · rw [climbLoop_of_le cand eu decay threshold st hst fuel,
        climbLoop_of_le cand eu decay threshold st hst (n + 1)]
    · obtain ⟨f, rfl⟩ : ∃ f, fuel = f + 1 := ⟨fuel - 1, by omega⟩
      have hf : n ≤ f := by omega
      show climbLoop cand eu decay threshold (f + 1) st =
        climbLoop cand eu decay threshold (n + 1) st
      unfold climbLoop
      simp only [hst, if_false]
      have h' : (((climbRound cand eu decay)^[n]) (climbRound cand eu decay st)).step ≤
          threshold := by
        rw [← Function.iterate_succ_apply]
        exact h
      exact ih (climbRound cand eu decay st) h' f hf

/-- Claim C3: for every decay > 1 and threshold > 0, and any evaluator, the
search loop shared by the hill-climbing variants terminates: some finite
number of rounds brings the step to at most the threshold (the loop's exit
condition), after which further fuel changes nothing; the step at exit is
`initial / decay ^ jj` where `jj` — the number of failed (step-dividing)
rounds — is exactly the least power for which `initial / decay ^ jj ≤
threshold`, i.e. about `log_decay(initial_step / threshold)`: the step
strictly decreases on each round in which no improving pair is found, and
each run of improving rounds at a fixed step is finite because the committed
expected utility strictly increases over a finite lattice of reachable
allocations. -/
theorem c3_search_loop_terminates :
    ∀ (cand : Alloc → ℚ → ℕ × ℕ → Option Alloc) (eu : Alloc → ℚ)
      (decay threshold : ℚ) (st : ClimbState),
      (∀ a s p c, cand a s p = some c → isGuardedTransfer a s c) →
      1 < decay → 0 < threshold →
      (∃ n jj, (((climbRound cand eu decay)^[n]) st).step ≤ threshold ∧
        (((climbRound cand eu decay)^[n]) st).step = st.step / decay ^ jj ∧
        ∀ i < jj, threshold < st.step / decay ^ i) ∧
      (∃ n, ∀ fuel, n ≤ fuel →
        climbLoop cand eu decay threshold fuel st =
          climbLoop cand eu decay threshold n st) := by
  intro cand eu decay threshold st Hc hd ht
  obtain ⟨k, hk⟩ := exists_decay_pow decay threshold st.step hd ht
  obtain ⟨n, jj, h1, h2, h3⟩ := climb_decay_count cand eu decay threshold Hc hd ht k st hk
  exact ⟨⟨n, jj, h1, h2, h3⟩, ⟨n, climbLoop_stabilizes cand eu decay threshold n st h1⟩⟩

/-- Witness for `c3_search_loop_terminates`: the base candidate generator
with the tie evaluator, decay 1.1 and threshold 0.01 from step 2. -/
theorem c3_search_loop_terminates_witness :
    (1 : ℚ) < 11 / 10 ∧ (0 : ℚ) < 1 / 100 ∧
    ((∃ n jj,
        (((climbRound baseCandidate euTie (11 / 10))^[n])
            { alloc := [some 2, some 2], step := 2 }).step ≤ 1 / 100 ∧
        (((climbRound baseCandidate euTie (11 / 10))^[n])
            { alloc := [some 2, some 2], step := 2 }).step = 2 / (11 / 10) ^ jj ∧
        ∀ i < jj, (1 : ℚ) / 100 < 2 / (11 / 10) ^ i) ∧
      (∃ n, ∀ fuel, n ≤ fuel →
        climbLoop baseCandidate euTie (11 / 10) (1 / 100) fuel
            { alloc := [some 2, some 2], step := 2 } =
          climbLoop baseCandidate euTie (11 / 10) (1 / 100) n
            { alloc := [some 2, some 2], step := 2 })) := by
  refine ⟨by norm_num, by norm_num, ?_⟩
  exact c3_search_loop_terminates baseCandidate euTie (11 / 10) (1 / 100)
    { alloc := [some 2, some 2], step := 2 }
    (fun a s p c h => baseCandidate_shape a s p c h) (by norm_num) (by norm_num)

end ContractProg
